import Mathlib

/-!
Verification of the seq-align pairwise alignment library.

This file shallowly embeds the library's core (score matrix, Needleman-Wunsch
global aligner, Smith-Waterman local aligner) into Lean and proves or refutes
the specification claims about it.

Embedding conventions:
* `Score` (Rust `i64`) is modelled as `Int`; `Letter` (Rust `char`) as `Char`.
* A Rust panic (out-of-bounds matrix index via the `Index`/`IndexMut`
  implementations, or a `usize` index underflow during traceback, which in
  every reachable case is followed by an out-of-bounds matrix read before any
  value is returned) is modelled by returning `none`; a normal return is
  `some`.
* Rust `while` loops are modelled by structurally recursive functions with an
  explicit fuel argument; the entry points supply fuel that provably dominates
  the number of iterations (each iteration strictly decreases `i + j`, and the
  fuel is initialised to `i + j`), so the out-of-fuel branch is unreachable.
* `Vec::push` is list append; the final `reverse` calls of the source are kept.
-/

namespace SeqAlign

/-- `score.rs`: `Score` is a 64-bit signed integer. Modelled as `Int`. -/
abbrev Score := Int

/-- `letter.rs`: `Letter` is just a character. -/
abbrev Letter := Char

/-- `letter.rs`: the gap letter constant. -/
def GAP : Letter := '-'

/-- `letter.rs`: `NormalizeLetter` for `Option<L>`: `None` becomes the gap. -/
def normalize_letter (o : Option Letter) : Letter :=
  o.getD GAP

/-! ## `matrix.rs`: the score matrix -/

/-- `matrix.rs`: 2D matrix of scores, a row-major buffer plus a width. -/
structure AlignmentMatrix where
  buf : List Score
  width : Nat
deriving Repr, DecidableEq

namespace AlignmentMatrix

/-- `matrix.rs`: matrix with all elements zero, of dimensions height x width. -/
def zeroed (height width : Nat) : AlignmentMatrix :=
  { buf := List.replicate (height * width) 0, width := width }

/-- `matrix.rs`: number of lines of the matrix. -/
def height (m : AlignmentMatrix) : Nat :=
  m.buf.length / m.width

/-- `matrix.rs`: packs a 2D index into a 1D index; `none` if out of bounds. -/
def pack_index (m : AlignmentMatrix) (i j : Nat) : Option Nat :=
  if m.width ≤ j then none else some (i * m.width + j)

/-- `matrix.rs`: unpacks a 1D index into a 2D index. -/
def unpack_index (m : AlignmentMatrix) (k : Nat) : Nat × Nat :=
  (k / m.width, k % m.width)

/-- `matrix.rs`: `get` — the value at a 2D index, `none` if out of bounds.
This is also the read path of the `Index` implementation, whose
out-of-bounds panic is modelled by propagating `none`. -/
def get (m : AlignmentMatrix) (i j : Nat) : Option Score :=
  (m.pack_index i j).bind fun k => m.buf.get? k

/-- `matrix.rs`: the write path of `IndexMut`: stores a value at a 2D index,
`none` (panic) if the index is out of bounds. -/
def mset (m : AlignmentMatrix) (i j : Nat) (v : Score) : Option AlignmentMatrix :=
  match m.pack_index i j with
  | none => none
  | some k => if k < m.buf.length then some { buf := m.buf.set k v, width := m.width } else none

/-- `matrix.rs`: `max` — the maximum score, if the matrix is not empty. -/
def maxScore (m : AlignmentMatrix) : Option Score :=
  m.buf.max?

/-- `matrix.rs`: `argmax_many` — the 2D indices of all maximum scores, in
row-major (buffer) order. -/
def argmax_many (m : AlignmentMatrix) : List (Nat × Nat) :=
  match m.maxScore with
  | some mx => (m.buf.enum.filter fun p => p.2 == mx).map fun p => m.unpack_index p.1
  | none => []

end AlignmentMatrix

/-! ## `global.rs`: Needleman-Wunsch global alignment -/

/-- `global.rs`: penalty/base score system of a global alignment. -/
structure GlobalAlignmentConfig where
  match_penalty : Score
  mismatch_penalty : Score
  gap_penalty : Score
deriving Repr, DecidableEq

/-- `global.rs`: the `Default` instance for `GlobalAlignmentConfig`. -/
def GlobalAlignmentConfig.default : GlobalAlignmentConfig :=
  { match_penalty := 1, mismatch_penalty := -1, gap_penalty := -2 }

/-- `global.rs`: result of the global alignment. The `u32` identity counters
are modelled as `Nat`. -/
structure GlobalAlignmentResult where
  aligned_row_seq : List Letter
  aligned_column_seq : List Letter
  score : Score
  identity_numer : Nat
  identity_denom : Nat
deriving Repr, DecidableEq

/-- `global.rs`/`local.rs`: possible directions during the traceback phase. -/
inductive TracebackStep where
  | TopLeft
  | Top
  | Left
deriving Repr, DecidableEq

/-- `global.rs`: registers a traceback step to the previous top-left cell. -/
def traceback_nw_top_left (row_seq column_seq : List Letter)
    (result : GlobalAlignmentResult) (current_i current_j : Nat) : GlobalAlignmentResult :=
  let row_letter := normalize_letter (row_seq.get? current_i)
  let column_letter := normalize_letter (column_seq.get? current_j)
  { result with
    aligned_row_seq := result.aligned_row_seq ++ [row_letter]
    aligned_column_seq := result.aligned_column_seq ++ [column_letter]
    identity_denom := result.identity_denom + 1
    identity_numer :=
      if row_letter = column_letter ∧ row_letter ≠ GAP then
        result.identity_numer + 1
      else
        result.identity_numer }

/-- `global.rs`: registers a traceback step to the previous top cell. -/
def traceback_nw_top (row_seq : List Letter)
    (result : GlobalAlignmentResult) (current_i : Nat) : GlobalAlignmentResult :=
  let row_letter := normalize_letter (row_seq.get? current_i)
  { result with
    aligned_row_seq := result.aligned_row_seq ++ [row_letter]
    aligned_column_seq := result.aligned_column_seq ++ [GAP] }

/-- `global.rs`: registers a traceback step to the previous left cell. -/
def traceback_nw_left (column_seq : List Letter)
    (result : GlobalAlignmentResult) (current_j : Nat) : GlobalAlignmentResult :=
  let column_letter := normalize_letter (column_seq.get? current_j)
  { result with
    aligned_row_seq := result.aligned_row_seq ++ [GAP]
    aligned_column_seq := result.aligned_column_seq ++ [column_letter] }

/-- `global.rs`, body of the traceback loop in `traceback_nw_best_alignment`:
the per-cell step choice. Reads the current cell; takes `Top` if the current
score equals the top predecessor plus the gap penalty, else `Left` by the
symmetric test, else `TopLeft`. `none` models the out-of-bounds read panic. -/
def nw_choose_step (config : GlobalAlignmentConfig) (matrix : AlignmentMatrix)
    (i j : Nat) : Option TracebackStep := do
  let current_score ← matrix.get i j
  let maybe_step ←
    if 0 < i then do
      let previous_score ← matrix.get (i - 1) j
      pure (if current_score = previous_score + config.gap_penalty
            then some TracebackStep.Top else none)
    else pure none
  let maybe_step ←
    match maybe_step with
    | some s => pure (some s)
    | none =>
      if 0 < j then do
        let previous_score ← matrix.get i (j - 1)
        pure (if current_score = previous_score + config.gap_penalty
              then some TracebackStep.Left else none)
      else pure none
  pure (maybe_step.getD TracebackStep.TopLeft)

/-- `global.rs`: the `while current_i > 0 || current_j > 0` traceback loop of
`traceback_nw_best_alignment`, with explicit fuel (entered with fuel
`i + j`, which dominates the iteration count since every step decreases
`i + j`). A `TopLeft` step with `i = 0` or `j = 0` is the `usize`
underflow panic, modelled as `none`. -/
def traceback_nw_loop (row_seq column_seq : List Letter)
    (config : GlobalAlignmentConfig) (matrix : AlignmentMatrix) :
    Nat → Nat → Nat → GlobalAlignmentResult → Option GlobalAlignmentResult
  | 0, i, j, result => if i = 0 ∧ j = 0 then some result else none
  | fuel + 1, i, j, result =>
    if i = 0 ∧ j = 0 then some result
    else
      match nw_choose_step config matrix i j with
      | none => none
      | some TracebackStep.Top =>
        traceback_nw_loop row_seq column_seq config matrix fuel
          (i - 1) j (traceback_nw_top row_seq result (i - 1))
      | some TracebackStep.Left =>
        traceback_nw_loop row_seq column_seq config matrix fuel
          i (j - 1) (traceback_nw_left column_seq result (j - 1))
      | some TracebackStep.TopLeft =>
        if 0 < i ∧ 0 < j then
          traceback_nw_loop row_seq column_seq config matrix fuel
            (i - 1) (j - 1) (traceback_nw_top_left row_seq column_seq result (i - 1) (j - 1))
        else none

/-- `global.rs`: `traceback_nw_best_alignment` — given a populated score
matrix, computes the global alignment. -/
def traceback_nw_best_alignment (row_seq column_seq : List Letter)
    (config : GlobalAlignmentConfig) (matrix : AlignmentMatrix) :
    Option GlobalAlignmentResult := do
  let current_i := matrix.height - 1
  let current_j := matrix.width - 1
  let s ← matrix.get current_i current_j
  let r ← traceback_nw_loop row_seq column_seq config matrix
    (current_i + current_j) current_i current_j
    { aligned_row_seq := [], aligned_column_seq := [], score := s
      identity_numer := 0, identity_denom := 0 }
  pure { r with
    aligned_row_seq := r.aligned_row_seq.reverse
    aligned_column_seq := r.aligned_column_seq.reverse
    identity_denom := max r.identity_denom 1 }

/-- `global.rs`: `fill_nw_matrix_base` — fills row 0 with `0, gap, 2*gap, ...`
and column 0 likewise. -/
def fill_nw_matrix_base (row_seq column_seq : List Letter)
    (config : GlobalAlignmentConfig) (matrix : AlignmentMatrix) :
    Option AlignmentMatrix := do
  let m ← (List.range' 1 column_seq.length).foldlM
    (fun m j => m.mset 0 j ((j : Int) * config.gap_penalty)) matrix
  (List.range' 1 row_seq.length).foldlM
    (fun m i => m.mset i 0 ((i : Int) * config.gap_penalty)) m

/-- `global.rs`: `compute_nw_matrix_cell` — computes one cell
`(pred_i + 1, pred_j + 1)` from its top-left, top and left neighbours. -/
def compute_nw_matrix_cell (row_seq column_seq : List Letter)
    (config : GlobalAlignmentConfig) (matrix : AlignmentMatrix)
    (pred_i pred_j : Nat) : Option AlignmentMatrix := do
  let top_left ← matrix.get pred_i pred_j
  let top ← matrix.get pred_i (pred_j + 1)
  let left ← matrix.get (pred_i + 1) pred_j
  let row_letter := normalize_letter (row_seq.get? pred_i)
  let column_letter := normalize_letter (column_seq.get? pred_j)
  let no_gap_penalty :=
    if row_letter = column_letter then config.match_penalty else config.mismatch_penalty
  let no_gap_score := top_left + no_gap_penalty
  let best_gap_neighbor := max top left
  let best_gap_score := best_gap_neighbor + config.gap_penalty
  matrix.mset (pred_i + 1) (pred_j + 1) (max best_gap_score no_gap_score)

/-- `global.rs`: the interleaved row/column staircase loop of
`fill_nw_matrix_content`, with explicit fuel (`column_seq.length` suffices
since `base_j` increases each iteration). -/
def fill_nw_matrix_content_loop (row_seq column_seq : List Letter)
    (config : GlobalAlignmentConfig) :
    Nat → AlignmentMatrix → Nat → Nat → Option AlignmentMatrix
  | 0, matrix, _, base_j => if column_seq.length ≤ base_j then some matrix else none
  | fuel + 1, matrix, base_i, base_j =>
    if column_seq.length ≤ base_j then some matrix
    else do
      let m ← (List.range' base_j (column_seq.length - base_j)).foldlM
        (fun m j => compute_nw_matrix_cell row_seq column_seq config m base_i j) matrix
      if row_seq.length ≤ base_i + 1 then some m
      else do
        let m ← (List.range' (base_i + 1) (row_seq.length - (base_i + 1))).foldlM
          (fun m i => compute_nw_matrix_cell row_seq column_seq config m i base_j) m
        fill_nw_matrix_content_loop row_seq column_seq config fuel m (base_i + 1) (base_j + 1)

/-- `global.rs`: `fill_nw_matrix_content`. -/
def fill_nw_matrix_content (row_seq column_seq : List Letter)
    (config : GlobalAlignmentConfig) (matrix : AlignmentMatrix) :
    Option AlignmentMatrix :=
  fill_nw_matrix_content_loop row_seq column_seq config column_seq.length matrix 0 0

/-- `global.rs`: `compute_nw_matrix` — allocates and fills the
Needleman-Wunsch score matrix. -/
def compute_nw_matrix (row_seq column_seq : List Letter)
    (config : GlobalAlignmentConfig) : Option AlignmentMatrix := do
  let matrix := AlignmentMatrix.zeroed (row_seq.length + 1) (column_seq.length + 1)
  let m ← fill_nw_matrix_base row_seq column_seq config matrix
  fill_nw_matrix_content row_seq column_seq config m

/-- `global.rs`: `needleman_wunsch`. -/
def needleman_wunsch (row_seq column_seq : List Letter)
    (config : GlobalAlignmentConfig) : Option GlobalAlignmentResult := do
  let matrix ← compute_nw_matrix row_seq column_seq config
  traceback_nw_best_alignment row_seq column_seq config matrix

/-! ## `local.rs`: Smith-Waterman local alignment -/

/-- `local.rs`: penalty/base score system of a local alignment. -/
structure LocalAlignmentConfig where
  match_penalty : Score
  mismatch_penalty : Score
  gap_penalty : Score
deriving Repr, DecidableEq

/-- `local.rs`: the `Default` instance for `LocalAlignmentConfig`. -/
def LocalAlignmentConfig.default : LocalAlignmentConfig :=
  { match_penalty := 1, mismatch_penalty := -1, gap_penalty := -2 }

/-- `local.rs`: an aligned slice of an input sequence, with window bounds. -/
structure LocallyAlignedSeq where
  start : Nat
  «end» : Nat
  data : List Letter
deriving Repr, DecidableEq

/-- `local.rs`: a local alignment computed by Smith-Waterman. -/
structure LocalAlignmentResult where
  aligned_row_seq : LocallyAlignedSeq
  aligned_column_seq : LocallyAlignedSeq
  score : Score
  identity_numer : Nat
  identity_denom : Nat
deriving Repr, DecidableEq

/-- `local.rs`: registers a traceback step to the previous top-left cell. -/
def traceback_sw_top_left (row_seq column_seq : List Letter)
    (result : LocalAlignmentResult) (current_i current_j : Nat) : LocalAlignmentResult :=
  let row_letter := normalize_letter (row_seq.get? current_i)
  let column_letter := normalize_letter (column_seq.get? current_j)
  { result with
    aligned_row_seq :=
      { start := result.aligned_row_seq.start - 1
        «end» := result.aligned_row_seq.«end»
        data := result.aligned_row_seq.data ++ [row_letter] }
    aligned_column_seq :=
      { start := result.aligned_column_seq.start - 1
        «end» := result.aligned_column_seq.«end»
        data := result.aligned_column_seq.data ++ [column_letter] }
    identity_denom := result.identity_denom + 1
    identity_numer :=
      if row_letter = column_letter ∧ row_letter ≠ GAP then
        result.identity_numer + 1
      else
        result.identity_numer }

/-- `local.rs`: registers a traceback step to the previous top cell. -/
def traceback_sw_top (row_seq : List Letter)
    (result : LocalAlignmentResult) (current_i : Nat) : LocalAlignmentResult :=
  let row_letter := normalize_letter (row_seq.get? current_i)
  { result with
    aligned_row_seq :=
      { start := result.aligned_row_seq.start - 1
        «end» := result.aligned_row_seq.«end»
        data := result.aligned_row_seq.data ++ [row_letter] }
    aligned_column_seq :=
      { result.aligned_column_seq with
        data := result.aligned_column_seq.data ++ [GAP] } }

/-- `local.rs`: registers a traceback step to the previous left cell. -/
def traceback_sw_left (column_seq : List Letter)
    (result : LocalAlignmentResult) (current_j : Nat) : LocalAlignmentResult :=
  let column_letter := normalize_letter (column_seq.get? current_j)
  { result with
    aligned_row_seq :=
      { result.aligned_row_seq with
        data := result.aligned_row_seq.data ++ [GAP] }
    aligned_column_seq :=
      { start := result.aligned_column_seq.start - 1
        «end» := result.aligned_column_seq.«end»
        data := result.aligned_column_seq.data ++ [column_letter] } }

/-- `local.rs`, first part of the loop body in `traceback_best_sw_alignment`:
the same Up-then-Left-then-Diagonal step choice as the global aligner. -/
def sw_choose_step (config : LocalAlignmentConfig) (matrix : AlignmentMatrix)
    (i j : Nat) : Option TracebackStep := do
  let current_score ← matrix.get i j
  let maybe_step ←
    if 0 < i then do
      let previous_score ← matrix.get (i - 1) j
      pure (if current_score = previous_score + config.gap_penalty
            then some TracebackStep.Top else none)
    else pure none
  let maybe_step ←
    match maybe_step with
    | some s => pure (some s)
    | none =>
      if 0 < j then do
        let previous_score ← matrix.get i (j - 1)
        pure (if current_score = previous_score + config.gap_penalty
              then some TracebackStep.Left else none)
      else pure none
  pure (maybe_step.getD TracebackStep.TopLeft)

/-- `local.rs`: the `while matrix[[current_i, current_j]] != 0` traceback loop
of `traceback_best_sw_alignment`, with explicit fuel (entered with `i + j`,
which dominates the iteration count). Each iteration performs the
priority-rule step and then, unconditionally, a second step chosen by
comparing the three neighbours against their maximum (or zero). The source
reads `matrix[[current_i - 1, current_j - 1]]`, `[[current_i - 1, current_j]]`
and `[[current_i, current_j - 1]]` before that second step with no bounds
check; when `current_i = 0` or `current_j = 0` this is the underflow /
out-of-bounds panic, modelled as `none`. -/
def traceback_sw_loop (row_seq column_seq : List Letter)
    (config : LocalAlignmentConfig) (matrix : AlignmentMatrix) :
    Nat → Nat → Nat → LocalAlignmentResult → Option LocalAlignmentResult
  | 0, i, j, result =>
    match matrix.get i j with
    | none => none
    | some current_score => if current_score = 0 then some result else none
  | fuel + 1, i, j, result =>
    match matrix.get i j with
    | none => none
    | some current_score =>
      if current_score = 0 then some result
      else
        match sw_choose_step config matrix i j with
        | none => none
        | some step =>
          let first :
              Option (Nat × Nat × LocalAlignmentResult) :=
            match step with
            | TracebackStep.Top =>
              some (i - 1, j, traceback_sw_top row_seq result (i - 1))
            | TracebackStep.Left =>
              some (i, j - 1, traceback_sw_left column_seq result (j - 1))
            | TracebackStep.TopLeft =>
              if 0 < i ∧ 0 < j then
                some (i - 1, j - 1, traceback_sw_top_left row_seq column_seq result (i - 1) (j - 1))
              else none
          match first with
          | none => none
          | some (i', j', result') =>
            if i' = 0 ∨ j' = 0 then none
            else
              match matrix.get (i' - 1) (j' - 1), matrix.get (i' - 1) j', matrix.get i' (j' - 1) with
              | some top_left, some top, some left =>
                let maximum := max (max top_left top) left
                if 0 < i' ∧ 0 < j' ∧ (top_left = maximum ∨ top_left = 0) then
                  traceback_sw_loop row_seq column_seq config matrix fuel
                    (i' - 1) (j' - 1)
                    (traceback_sw_top_left row_seq column_seq result' (i' - 1) (j' - 1))
                else if 0 < i' ∧ (top = maximum ∨ top = 0) then
                  traceback_sw_loop row_seq column_seq config matrix fuel
                    (i' - 1) j' (traceback_sw_top row_seq result' (i' - 1))
                else
                  traceback_sw_loop row_seq column_seq config matrix fuel
                    i' (j' - 1) (traceback_sw_left column_seq result' (j' - 1))
              | _, _, _ => none

/-- `local.rs`: `traceback_best_sw_alignment` — one independent traceback per
coordinate achieving the matrix-wide maximum, in row-major order. -/
def traceback_best_sw_alignment (row_seq column_seq : List Letter)
    (config : LocalAlignmentConfig) (matrix : AlignmentMatrix) :
    Option (List LocalAlignmentResult) :=
  matrix.argmax_many.mapM fun p => do
    let s ← matrix.get p.1 p.2
    let r ← traceback_sw_loop row_seq column_seq config matrix (p.1 + p.2) p.1 p.2
      { aligned_row_seq := { start := p.1, «end» := p.1, data := [] }
        aligned_column_seq := { start := p.2, «end» := p.2, data := [] }
        score := s, identity_numer := 0, identity_denom := 0 }
    pure { r with
      aligned_row_seq := { r.aligned_row_seq with data := r.aligned_row_seq.data.reverse }
      aligned_column_seq := { r.aligned_column_seq with data := r.aligned_column_seq.data.reverse }
      identity_denom := max r.identity_denom 1 }

/-- `local.rs`: `compute_sw_matrix_cell` — as the global cell computation, but
the result is additionally clamped to be at least 0. -/
def compute_sw_matrix_cell (row_seq column_seq : List Letter)
    (config : LocalAlignmentConfig) (matrix : AlignmentMatrix)
    (pred_i pred_j : Nat) : Option AlignmentMatrix := do
  let top_left ← matrix.get pred_i pred_j
  let top ← matrix.get pred_i (pred_j + 1)
  let left ← matrix.get (pred_i + 1) pred_j
  let row_letter := normalize_letter (row_seq.get? pred_i)
  let column_letter := normalize_letter (column_seq.get? pred_j)
  let no_gap_penalty :=
    if row_letter = column_letter then config.match_penalty else config.mismatch_penalty
  let no_gap_score := top_left + no_gap_penalty
  let best_gap_neighbor := max top left
  let best_gap_score := best_gap_neighbor + config.gap_penalty
  matrix.mset (pred_i + 1) (pred_j + 1) (max (max best_gap_score no_gap_score) 0)

/-- `local.rs`: the staircase loop of `fill_sw_matrix_content` (same traversal
as the global fill). -/
def fill_sw_matrix_content_loop (row_seq column_seq : List Letter)
    (config : LocalAlignmentConfig) :
    Nat → AlignmentMatrix → Nat → Nat → Option AlignmentMatrix
  | 0, matrix, _, base_j => if column_seq.length ≤ base_j then some matrix else none
  | fuel + 1, matrix, base_i, base_j =>
    if column_seq.length ≤ base_j then some matrix
    else do
      let m ← (List.range' base_j (column_seq.length - base_j)).foldlM
        (fun m j => compute_sw_matrix_cell row_seq column_seq config m base_i j) matrix
      if row_seq.length ≤ base_i + 1 then some m
      else do
        let m ← (List.range' (base_i + 1) (row_seq.length - (base_i + 1))).foldlM
          (fun m i => compute_sw_matrix_cell row_seq column_seq config m i base_j) m
        fill_sw_matrix_content_loop row_seq column_seq config fuel m (base_i + 1) (base_j + 1)

/-- `local.rs`: `fill_sw_matrix_content`. -/
def fill_sw_matrix_content (row_seq column_seq : List Letter)
    (config : LocalAlignmentConfig) (matrix : AlignmentMatrix) :
    Option AlignmentMatrix :=
  fill_sw_matrix_content_loop row_seq column_seq config column_seq.length matrix 0 0

/-- `local.rs`: `compute_sw_matrix` — a zeroed matrix (borders stay 0) filled
by the clamped recurrence. -/
def compute_sw_matrix (row_seq column_seq : List Letter)
    (config : LocalAlignmentConfig) : Option AlignmentMatrix :=
  fill_sw_matrix_content row_seq column_seq config
    (AlignmentMatrix.zeroed (row_seq.length + 1) (column_seq.length + 1))

/-- `local.rs`: `best_smith_waterman`. -/
def best_smith_waterman (row_seq column_seq : List Letter)
    (config : LocalAlignmentConfig) : Option (List LocalAlignmentResult) := do
  let matrix ← compute_sw_matrix row_seq column_seq config
  traceback_best_sw_alignment row_seq column_seq config matrix

/-! ## Reference recurrences

`nw_score`/`sw_score` are the mathematical dynamic-programming recurrences
computed by `compute_nw_matrix_cell`/`compute_sw_matrix_cell` together with
the border initialisation, as functions of a coordinate. They are the
reference values against which the imperative fills are proved correct. -/

/-- Fueled form of the Needleman-Wunsch recurrence (the fuel dominates
`i + j`; see `nw_score`). -/
def nw_score_fueled (row_seq column_seq : List Letter)
    (config : GlobalAlignmentConfig) : Nat → Nat → Nat → Score
  | _, 0, j => (j : Int) * config.gap_penalty
  | _, i + 1, 0 => ((i : Int) + 1) * config.gap_penalty
  | 0, _ + 1, _ + 1 => 0
  | fuel + 1, i + 1, j + 1 =>
    let top_left := nw_score_fueled row_seq column_seq config fuel i j
    let top := nw_score_fueled row_seq column_seq config fuel i (j + 1)
    let left := nw_score_fueled row_seq column_seq config fuel (i + 1) j
    let row_letter := normalize_letter (row_seq.get? i)
    let column_letter := normalize_letter (column_seq.get? j)
    let no_gap_penalty :=
      if row_letter = column_letter then config.match_penalty else config.mismatch_penalty
    max (max top left + config.gap_penalty) (top_left + no_gap_penalty)

/-- The Needleman-Wunsch recurrence: border `i*gap`/`j*gap`, interior cells
the three-way max of the global fill. -/
def nw_score (row_seq column_seq : List Letter) (config : GlobalAlignmentConfig)
    (i j : Nat) : Score :=
  nw_score_fueled row_seq column_seq config (i + j) i j

/-- Fueled form of the Smith-Waterman recurrence (see `sw_score`). -/
def sw_score_fueled (row_seq column_seq : List Letter)
    (config : LocalAlignmentConfig) : Nat → Nat → Nat → Score
  | _, 0, _ => 0
  | _, _ + 1, 0 => 0
  | 0, _ + 1, _ + 1 => 0
  | fuel + 1, i + 1, j + 1 =>
    let top_left := sw_score_fueled row_seq column_seq config fuel i j
    let top := sw_score_fueled row_seq column_seq config fuel i (j + 1)
    let left := sw_score_fueled row_seq column_seq config fuel (i + 1) j
    let row_letter := normalize_letter (row_seq.get? i)
    let column_letter := normalize_letter (column_seq.get? j)
    let no_gap_penalty :=
      if row_letter = column_letter then config.match_penalty else config.mismatch_penalty
    max (max (max top left + config.gap_penalty) (top_left + no_gap_penalty)) 0

/-- The Smith-Waterman recurrence: zero borders, interior cells the clamped
three-way max of the local fill. -/
def sw_score (row_seq column_seq : List Letter) (config : LocalAlignmentConfig)
    (i j : Nat) : Score :=
  sw_score_fueled row_seq column_seq config (i + j) i j

/-- The Needleman-Wunsch matrix as a value: cell `(i, j)` holds
`nw_score i j`. Both fill orders are proved to produce exactly this matrix. -/
def nw_canonical (row_seq column_seq : List Letter)
    (config : GlobalAlignmentConfig) : AlignmentMatrix :=
  { buf := (List.range ((row_seq.length + 1) * (column_seq.length + 1))).map fun k =>
      nw_score row_seq column_seq config (k / (column_seq.length + 1)) (k % (column_seq.length + 1))
    width := column_seq.length + 1 }

/-- The Smith-Waterman matrix as a value: cell `(i, j)` holds `sw_score i j`. -/
def sw_canonical (row_seq column_seq : List Letter)
    (config : LocalAlignmentConfig) : AlignmentMatrix :=
  { buf := (List.range ((row_seq.length + 1) * (column_seq.length + 1))).map fun k =>
      sw_score row_seq column_seq config (k / (column_seq.length + 1)) (k % (column_seq.length + 1))
    width := column_seq.length + 1 }

/-! ## Spec-side definitions -/

/-- Modelled from the spec (§4.2 step 3 / §2.5 design notes), for the
refinement claim C7: a straightforward row-major traversal of the interior
cells, applying the same per-cell computation `compute_nw_matrix_cell`. -/
def fill_nw_matrix_content_row_major (row_seq column_seq : List Letter)
    (config : GlobalAlignmentConfig) (matrix : AlignmentMatrix) :
    Option AlignmentMatrix :=
  (List.range row_seq.length).foldlM
    (fun m i =>
      (List.range column_seq.length).foldlM
        (fun m j => compute_nw_matrix_cell row_seq column_seq config m i j) m)
    matrix

/-- Modelled from the spec, for claim C7: the global matrix computed with the
same border initialisation but a row-major content fill. -/
def compute_nw_matrix_row_major (row_seq column_seq : List Letter)
    (config : GlobalAlignmentConfig) : Option AlignmentMatrix := do
  let matrix := AlignmentMatrix.zeroed (row_seq.length + 1) (column_seq.length + 1)
  let m ← fill_nw_matrix_base row_seq column_seq config matrix
  fill_nw_matrix_content_row_major row_seq column_seq config m

/-- Modelled from the spec, for claim C7: row-major traversal of the local
fill, applying the same per-cell computation `compute_sw_matrix_cell`. -/
def fill_sw_matrix_content_row_major (row_seq column_seq : List Letter)
    (config : LocalAlignmentConfig) (matrix : AlignmentMatrix) :
    Option AlignmentMatrix :=
  (List.range row_seq.length).foldlM
    (fun m i =>
      (List.range column_seq.length).foldlM
        (fun m j => compute_sw_matrix_cell row_seq column_seq config m i j) m)
    matrix

/-- Modelled from the spec, for claim C7: the local matrix with a row-major
content fill (zero borders as in the implementation). -/
def compute_sw_matrix_row_major (row_seq column_seq : List Letter)
    (config : LocalAlignmentConfig) : Option AlignmentMatrix :=
  fill_sw_matrix_content_row_major row_seq column_seq config
    (AlignmentMatrix.zeroed (row_seq.length + 1) (column_seq.length + 1))

/-- The spec's score recomputation rule (§8, claim C5): the weight of one
aligned position — gap weight if either side is a gap, else match or
mismatch weight by equality. -/
def pair_weight (match_w mismatch_w gap_w : Score) (a b : Letter) : Score :=
  if a = GAP ∨ b = GAP then gap_w
  else if a = b then match_w
  else mismatch_w

/-- The spec's score recomputation rule (§8, claim C5): sum of the per-position
weights over the two aligned sequences, position by position. -/
def recompute_score (match_w mismatch_w gap_w : Score) (xs ys : List Letter) : Score :=
  ((xs.zip ys).map fun p => pair_weight match_w mismatch_w gap_w p.1 p.2).sum

/-! ## Fill-order correctness: invariants

A cell write is valid once its top-left, top and left neighbours hold their
reference values. `FillInv` states that all cells marked `done` (plus the
borders) hold the reference value `f`; `SeqOK` states that a list of cells can
be processed in order, each one's dependencies being `done` or earlier in the
list. -/

/-- Dependencies of interior cell `(pred_i + 1, pred_j + 1)` among the
interior cells (border neighbours are always available). -/
def Deps (done : Nat → Nat → Prop) (pred_i pred_j : Nat) : Prop :=
  (0 < pred_i → 0 < pred_j → done (pred_i - 1) (pred_j - 1)) ∧
  (0 < pred_i → done (pred_i - 1) pred_j) ∧
  (0 < pred_j → done pred_i (pred_j - 1))

/-- A list of interior cells (in predecessor coordinates) is processable in
order from a `done` set. -/
def SeqOK (rl cl : Nat) : (Nat → Nat → Prop) → List (Nat × Nat) → Prop
  | _, [] => True
  | done, p :: rest =>
    p.1 < rl ∧ p.2 < cl ∧ Deps done p.1 p.2 ∧
      SeqOK rl cl (fun i j => done i j ∨ (i = p.1 ∧ j = p.2)) rest

/-- Invariant of a partially filled matrix: correct dimensions, borders
holding the reference value `f`, and every `done` interior cell holding `f`. -/
def FillInv (rl cl : Nat) (f : Nat → Nat → Score) (done : Nat → Nat → Prop)
    (m : AlignmentMatrix) : Prop :=
  m.width = cl + 1 ∧ m.buf.length = (rl + 1) * (cl + 1) ∧
  (∀ j, j ≤ cl → m.get 0 j = some (f 0 j)) ∧
  (∀ i, i ≤ rl → m.get i 0 = some (f i 0)) ∧
  (∀ i j, i < rl → j < cl → done i j → m.get (i + 1) (j + 1) = some (f (i + 1) (j + 1)))

/-- The property of a per-cell computation: given its dependencies, it writes
the reference value and preserves the invariant. -/
def CellSpec (rl cl : Nat) (f : Nat → Nat → Score)
    (cell : AlignmentMatrix → Nat → Nat → Option AlignmentMatrix) : Prop :=
  ∀ done m pred_i pred_j, FillInv rl cl f done m → pred_i < rl → pred_j < cl →
    Deps done pred_i pred_j →
    ∃ m', cell m pred_i pred_j = some m' ∧
      FillInv rl cl f (fun i j => done i j ∨ (i = pred_i ∧ j = pred_j)) m'

/-! ## Fuel irrelevance for the reference recurrences -/

theorem nw_score_fueled_irrel (row_seq column_seq : List Letter)
    (config : GlobalAlignmentConfig) :
    ∀ f₁ f₂ i j, i + j ≤ f₁ → i + j ≤ f₂ →
      nw_score_fueled row_seq column_seq config f₁ i j =
        nw_score_fueled row_seq column_seq config f₂ i j := by
  intro f₁
  induction f₁ with
  | zero =>
    intro f₂ i j h₁ _
    match i, j with
    | 0, j => simp [nw_score_fueled]
    | i + 1, 0 => simp [nw_score_fueled]
    | i + 1, j + 1 => omega
  | succ f ih =>
    intro f₂ i j h₁ h₂
    match i, j with
    | 0, j => simp [nw_score_fueled]
    | i + 1, 0 => simp [nw_score_fueled]
    | i + 1, j + 1 =>
      match f₂, h₂ with
      | f₂ + 1, h₂ =>
        show (nw_score_fueled row_seq column_seq config (f + 1) (i + 1) (j + 1)) = _
        simp only [nw_score_fueled]
        rw [ih f₂ i j (by omega) (by omega), ih f₂ i (j + 1) (by omega) (by omega),
          ih f₂ (i + 1) j (by omega) (by omega)]

theorem sw_score_fueled_irrel (row_seq column_seq : List Letter)
    (config : LocalAlignmentConfig) :
    ∀ f₁ f₂ i j, i + j ≤ f₁ → i + j ≤ f₂ →
      sw_score_fueled row_seq column_seq config f₁ i j =
        sw_score_fueled row_seq column_seq config f₂ i j := by
  intro f₁
  induction f₁ with
  | zero =>
    intro f₂ i j h₁ _
    match i, j with
    | 0, j => simp [sw_score_fueled]
    | i + 1, 0 => simp [sw_score_fueled]
    | i + 1, j + 1 => omega
  | succ f ih =>
    intro f₂ i j h₁ h₂
    match i, j with
    | 0, j => simp [sw_score_fueled]
    | i + 1, 0 => simp [sw_score_fueled]
    | i + 1, j + 1 =>
      match f₂, h₂ with
      | f₂ + 1, h₂ =>
        show (sw_score_fueled row_seq column_seq config (f + 1) (i + 1) (j + 1)) = _
        simp only [sw_score_fueled]
        rw [ih f₂ i j (by omega) (by omega), ih f₂ i (j + 1) (by omega) (by omega),
          ih f₂ (i + 1) j (by omega) (by omega)]

theorem nw_score_zero_left (row_seq column_seq : List Letter)
    (config : GlobalAlignmentConfig) (j : Nat) :
    nw_score row_seq column_seq config 0 j = (j : Int) * config.gap_penalty := by
  simp [nw_score, nw_score_fueled]

theorem nw_score_zero_right (row_seq column_seq : List Letter)
    (config : GlobalAlignmentConfig) (i : Nat) :
    nw_score row_seq column_seq config i 0 = (i : Int) * config.gap_penalty := by
  match i with
  | 0 => simp [nw_score, nw_score_fueled]
  | i + 1 => simp [nw_score, nw_score_fueled]

/-- The interior equation for `nw_score`. -/
theorem nw_score_succ_succ (row_seq column_seq : List Letter)
    (config : GlobalAlignmentConfig) (i j : Nat) :
    nw_score row_seq column_seq config (i + 1) (j + 1) =
      max (max (nw_score row_seq column_seq config i (j + 1))
               (nw_score row_seq column_seq config (i + 1) j) + config.gap_penalty)
        (nw_score row_seq column_seq config i j +
          (if normalize_letter (row_seq.get? i) = normalize_letter (column_seq.get? j)
           then config.match_penalty else config.mismatch_penalty)) := by
  show nw_score_fueled row_seq column_seq config (i + 1 + (j + 1)) (i + 1) (j + 1) = _
  have : i + 1 + (j + 1) = (i + j + 1) + 1 := by omega
  rw [this]
  simp only [nw_score_fueled]
  rw [nw_score_fueled_irrel row_seq column_seq config (i + j + 1) (i + j) i j (by omega) (by omega),
    nw_score_fueled_irrel row_seq column_seq config (i + j + 1) (i + (j + 1)) i (j + 1)
      (by omega) (by omega),
    nw_score_fueled_irrel row_seq column_seq config (i + j + 1) (i + 1 + j) (i + 1) j
      (by omega) (by omega)]
  rfl

theorem sw_score_zero_left (row_seq column_seq : List Letter)
    (config : LocalAlignmentConfig) (j : Nat) :
    sw_score row_seq column_seq config 0 j = 0 := by
  simp [sw_score, sw_score_fueled]

theorem sw_score_zero_right (row_seq column_seq : List Letter)
    (config : LocalAlignmentConfig) (i : Nat) :
    sw_score row_seq column_seq config i 0 = 0 := by
  match i with
  | 0 => simp [sw_score, sw_score_fueled]
  | i + 1 => simp [sw_score, sw_score_fueled]

/-- The interior equation for `sw_score`. -/
theorem sw_score_succ_succ (row_seq column_seq : List Letter)
    (config : LocalAlignmentConfig) (i j : Nat) :
    sw_score row_seq column_seq config (i + 1) (j + 1) =
      max (max (max (sw_score row_seq column_seq config i (j + 1))
                    (sw_score row_seq column_seq config (i + 1) j) + config.gap_penalty)
        (sw_score row_seq column_seq config i j +
          (if normalize_letter (row_seq.get? i) = normalize_letter (column_seq.get? j)
           then config.match_penalty else config.mismatch_penalty))) 0 := by
  show sw_score_fueled row_seq column_seq config (i + 1 + (j + 1)) (i + 1) (j + 1) = _
  have : i + 1 + (j + 1) = (i + j + 1) + 1 := by omega
  rw [this]
  simp only [sw_score_fueled]
  rw [sw_score_fueled_irrel row_seq column_seq config (i + j + 1) (i + j) i j (by omega) (by omega),
    sw_score_fueled_irrel row_seq column_seq config (i + j + 1) (i + (j + 1)) i (j + 1)
      (by omega) (by omega),
    sw_score_fueled_irrel row_seq column_seq config (i + j + 1) (i + 1 + j) (i + 1) j
      (by omega) (by omega)]
  rfl

/-! ## Matrix access lemmas -/

theorem AlignmentMatrix.get_def (m : AlignmentMatrix) (i j : Nat) :
    m.get i j = if m.width ≤ j then none else m.buf.get? (i * m.width + j) := by
  unfold AlignmentMatrix.get AlignmentMatrix.pack_index
  by_cases h : m.width ≤ j <;> simp [h]

theorem AlignmentMatrix.get_mset {m : AlignmentMatrix} {i j : Nat} {v : Score}
    {m' : AlignmentMatrix} (h : m.mset i j v = some m') :
    m'.width = m.width ∧ m'.buf.length = m.buf.length ∧ m'.get i j = some v ∧
      ∀ a b, ¬(a = i ∧ b = j) → m'.get a b = m.get a b := by
  unfold AlignmentMatrix.mset AlignmentMatrix.pack_index at h
  by_cases hw : m.width ≤ j
  · simp [hw] at h
  · simp only [hw, if_false] at h
    by_cases hk : i * m.width + j < m.buf.length
    · simp only [hk, if_true, Option.some.injEq] at h
      subst h
      refine ⟨rfl, by simp, ?_, ?_⟩
      · rw [AlignmentMatrix.get_def]
        simp only [hw, if_false]
        simp [List.get?_eq_getElem?, List.getElem?_set, hk]
      · intro a b hab
        rw [AlignmentMatrix.get_def, AlignmentMatrix.get_def]
        by_cases hbw : m.width ≤ b
        · simp [hbw]
        · simp only [hbw, if_false]
          have hne : a * m.width + b ≠ i * m.width + j := by
            intro he
            have hw0 : 0 < m.width := by omega
            have ha : (a * m.width + b) / m.width = a := by
              rw [Nat.mul_comm a m.width, Nat.mul_add_div hw0, Nat.div_eq_of_lt (by omega)]
              omega
            have hi : (i * m.width + j) / m.width = i := by
              rw [Nat.mul_comm i m.width, Nat.mul_add_div hw0, Nat.div_eq_of_lt (by omega)]
              omega
            have hb : (a * m.width + b) % m.width = b := by
              rw [Nat.mul_comm a m.width, Nat.mul_add_mod, Nat.mod_eq_of_lt (by omega)]
            have hj : (i * m.width + j) % m.width = j := by
              rw [Nat.mul_comm i m.width, Nat.mul_add_mod, Nat.mod_eq_of_lt (by omega)]
            exact hab ⟨by rw [← ha, he, hi], by rw [← hb, he, hj]⟩
          rw [List.get?_eq_getElem?, List.get?_eq_getElem?, List.getElem?_set,
            if_neg (fun hc => hne hc.symm)]
    · simp [hk] at h

theorem AlignmentMatrix.mset_isSome (m : AlignmentMatrix) (i j : Nat) (v : Score)
    (hj : j < m.width) (hk : i * m.width + j < m.buf.length) :
    ∃ m', m.mset i j v = some m' := by
  unfold AlignmentMatrix.mset AlignmentMatrix.pack_index
  simp only [Nat.not_le.mpr hj, if_false, hk, if_true]
  exact ⟨_, rfl⟩

theorem AlignmentMatrix.zeroed_get {h w i j : Nat} (hi : i < h) (hj : j < w) :
    (AlignmentMatrix.zeroed h w).get i j = some 0 := by
  rw [AlignmentMatrix.get_def]
  have hw : ¬ (AlignmentMatrix.zeroed h w).width ≤ j := by
    simp [AlignmentMatrix.zeroed]; omega
  simp only [hw, if_false]
  have hlt : i * w + j < h * w := by
    calc i * w + j < i * w + w := by omega
    _ = (i + 1) * w := by ring
    _ ≤ h * w := Nat.mul_le_mul_right w hi
  simp [AlignmentMatrix.zeroed, List.get?_eq_getElem?, List.getElem?_replicate, hlt]

/-! ## Generic fill-order correctness machinery -/

theorem FillInv.mono {rl cl : Nat} {f : Nat → Nat → Score}
    {done done' : Nat → Nat → Prop} {m : AlignmentMatrix}
    (h : FillInv rl cl f done m)
    (hsub : ∀ i j, i < rl → j < cl → done' i j → done i j) :
    FillInv rl cl f done' m :=
  ⟨h.1, h.2.1, h.2.2.1, h.2.2.2.1, fun i j hi hj hd => h.2.2.2.2 i j hi hj (hsub i j hi hj hd)⟩

/-- All cells of a fully `done` matrix hold the reference value. -/
theorem FillInv.get_all {rl cl : Nat} {f : Nat → Nat → Score} {m : AlignmentMatrix}
    (h : FillInv rl cl f (fun _ _ => True) m) :
    ∀ i j, i ≤ rl → j ≤ cl → m.get i j = some (f i j) := by
  intro i j hi hj
  match i, j with
  | 0, j => exact h.2.2.1 j hj
  | i + 1, 0 => exact h.2.2.2.1 (i + 1) hi
  | i + 1, j + 1 => exact h.2.2.2.2 i j (by omega) (by omega) trivial

/-- A matrix whose cells all hold `f` is the canonical matrix of `f`. -/
theorem FillInv.eq_canonical {rl cl : Nat} {f : Nat → Nat → Score} {m : AlignmentMatrix}
    (h : FillInv rl cl f (fun _ _ => True) m) :
    m = { buf := (List.range ((rl + 1) * (cl + 1))).map fun k => f (k / (cl + 1)) (k % (cl + 1))
          width := cl + 1 } := by
  have hw := h.1
  have hlen := h.2.1
  have hall := h.get_all
  have hbuf : m.buf =
      (List.range ((rl + 1) * (cl + 1))).map fun k => f (k / (cl + 1)) (k % (cl + 1)) := by
    apply List.ext_get?
    intro k
    by_cases hk : k < (rl + 1) * (cl + 1)
    · have hi : k / (cl + 1) ≤ rl := by
        have h1 : k / (cl + 1) < rl + 1 :=
          (Nat.div_lt_iff_lt_mul (by omega)).mpr hk
        omega
      have hj : k % (cl + 1) ≤ cl := by
        have h1 : k % (cl + 1) < cl + 1 := Nat.mod_lt _ (by omega)
        omega
      have hget := hall (k / (cl + 1)) (k % (cl + 1)) hi hj
      rw [AlignmentMatrix.get_def, hw] at hget
      simp only [Nat.not_le.mpr (Nat.lt_succ_of_le hj), if_false] at hget
      have hpack : k / (cl + 1) * (cl + 1) + k % (cl + 1) = k := by
        rw [Nat.mul_comm]
        exact Nat.div_add_mod k (cl + 1)
      rw [hpack] at hget
      rw [hget, List.get?_eq_getElem?, List.getElem?_map]
      have hr : (List.range ((rl + 1) * (cl + 1)))[k]? = some k := by
        simp [List.getElem?_range, hk]
      rw [hr]
      rfl
    · rw [List.get?_eq_none.mpr (by omega), List.get?_eq_none.mpr (by simp; omega)]
  obtain ⟨buf, w⟩ := m
  simp only at hbuf hw
  rw [AlignmentMatrix.mk.injEq]
  exact ⟨hbuf, hw⟩

/-- Folding a valid cell computation over a processable list of cells
succeeds and marks them all done. -/
theorem foldlM_cells {rl cl : Nat} {f : Nat → Nat → Score}
    {cell : AlignmentMatrix → Nat → Nat → Option AlignmentMatrix}
    (hcell : CellSpec rl cl f cell) :
    ∀ (cells : List (Nat × Nat)) (done : Nat → Nat → Prop) (m : AlignmentMatrix),
      FillInv rl cl f done m → SeqOK rl cl done cells →
      ∃ m', cells.foldlM (fun m p => cell m p.1 p.2) m = some m' ∧
        FillInv rl cl f (fun i j => done i j ∨ (i, j) ∈ cells) m' := by
  intro cells
  induction cells with
  | nil =>
    intro done m hinv _
    exact ⟨m, rfl, hinv.mono (fun i j _ _ hd => by simpa using hd)⟩
  | cons p rest ih =>
    intro done m hinv hseq
    obtain ⟨hp1, hp2, hdeps, hrest⟩ := hseq
    obtain ⟨m₁, hm₁, hinv₁⟩ := hcell done m p.1 p.2 hinv hp1 hp2 hdeps
    obtain ⟨m', hm', hinv'⟩ := ih _ m₁ hinv₁ hrest
    refine ⟨m', ?_, ?_⟩
    · simpa [hm₁] using hm'
    · refine hinv'.mono (fun i j _ _ hd => ?_)
      rcases hd with hd | hmem
      · exact Or.inl (Or.inl hd)
      · rcases List.mem_cons.mp hmem with he | hmem
        · exact Or.inl (Or.inr ⟨congrArg Prod.fst he, congrArg Prod.snd he⟩)
        · exact Or.inr hmem

/-- A row sweep `(base_i, j)` for `j ∈ [j0, j0 + n)` is processable once all
rows below `base_i` are done and, if `j0 > 0`, the cell to its left is done. -/
theorem seqOK_row (rl cl : Nat) (base_i : Nat) :
    ∀ (n j0 : Nat) (done : Nat → Nat → Prop), base_i < rl → j0 + n ≤ cl →
      (∀ i j, i < base_i → done i j) → (0 < j0 → done base_i (j0 - 1)) →
      SeqOK rl cl done ((List.range' j0 n).map fun j => (base_i, j)) := by
  intro n
  induction n with
  | zero => intro j0 done _ _ _ _; simp [SeqOK]
  | succ n ih =>
    intro j0 done hbi hj0 hrows hleft
    simp only [List.range'_succ, List.map_cons]
    refine ⟨hbi, by omega, ⟨?_, ?_, ?_⟩, ?_⟩
    · intro hb _; exact hrows _ _ (by omega)
    · intro hb; exact hrows _ _ (by omega)
    · intro hj; exact hleft hj
    · refine ih (j0 + 1) _ hbi (by omega) (fun i j hi => Or.inl (hrows i j hi)) ?_
      intro _
      exact Or.inr ⟨rfl, by omega⟩

/-- A column sweep `(i, base_j)` for `i ∈ [i0, i0 + n)` is processable once
all columns left of `base_j` are done and, if `i0 > 0`, the cell above is
done. -/
theorem seqOK_col (rl cl : Nat) (base_j : Nat) :
    ∀ (n i0 : Nat) (done : Nat → Nat → Prop), base_j < cl → i0 + n ≤ rl →
      (∀ i j, j < base_j → done i j) → (0 < i0 → done (i0 - 1) base_j) →
      SeqOK rl cl done ((List.range' i0 n).map fun i => (i, base_j)) := by
  intro n
  induction n with
  | zero => intro i0 done _ _ _ _; simp [SeqOK]
  | succ n ih =>
    intro i0 done hbj hi0 hcols htop
    simp only [List.range'_succ, List.map_cons]
    refine ⟨by omega, hbj, ⟨?_, ?_, ?_⟩, ?_⟩
    · intro _ hb; exact hcols _ _ (by omega)
    · intro hi; exact htop hi
    · intro hb; exact hcols _ _ (by omega)
    · refine ih (i0 + 1) _ hbj (by omega) (fun i j hj => Or.inl (hcols i j hj)) ?_
      intro _
      exact Or.inr ⟨by omega, rfl⟩

/-! ## The per-cell computations meet `CellSpec` -/

theorem cellSpec_nw (row_seq column_seq : List Letter) (config : GlobalAlignmentConfig) :
    CellSpec row_seq.length column_seq.length (nw_score row_seq column_seq config)
      (compute_nw_matrix_cell row_seq column_seq config) := by
  intro done m pi pj hinv hpi hpj hdeps
  obtain ⟨hw, hlen, hbrow, hbcol, hint⟩ := hinv
  have hTL : m.get pi pj = some (nw_score row_seq column_seq config pi pj) := by
    match pi, pj, hdeps with
    | 0, pj, _ => exact hbrow pj (by omega)
    | pi + 1, 0, _ => exact hbcol (pi + 1) (by omega)
    | pi + 1, pj + 1, ⟨h1, _, _⟩ =>
      exact hint pi pj (by omega) (by omega) (h1 (by omega) (by omega))
  have hT : m.get pi (pj + 1) = some (nw_score row_seq column_seq config pi (pj + 1)) := by
    match pi, hdeps with
    | 0, _ => exact hbrow (pj + 1) (by omega)
    | pi + 1, ⟨_, h2, _⟩ => exact hint pi pj (by omega) hpj (h2 (by omega))
  have hL : m.get (pi + 1) pj = some (nw_score row_seq column_seq config (pi + 1) pj) := by
    match pj, hdeps with
    | 0, _ => exact hbcol (pi + 1) (by omega)
    | pj + 1, ⟨_, _, h3⟩ => exact hint pi pj hpi (by omega) (h3 (by omega))
  have hcell : compute_nw_matrix_cell row_seq column_seq config m pi pj
      = m.mset (pi + 1) (pj + 1) (nw_score row_seq column_seq config (pi + 1) (pj + 1)) := by
    simp only [compute_nw_matrix_cell, hTL, hT, hL, Option.bind_eq_bind, Option.some_bind]
    rw [nw_score_succ_succ]
  have hjw : pj + 1 < m.width := by omega
  have hkb : (pi + 1) * m.width + (pj + 1) < m.buf.length := by
    rw [hw, hlen]
    calc (pi + 1) * (column_seq.length + 1) + (pj + 1)
        < (pi + 1) * (column_seq.length + 1) + (column_seq.length + 1) := by omega
      _ = (pi + 2) * (column_seq.length + 1) := by ring
      _ ≤ (row_seq.length + 1) * (column_seq.length + 1) :=
          Nat.mul_le_mul_right _ (by omega)
  obtain ⟨m', hm'⟩ := AlignmentMatrix.mset_isSome m (pi + 1) (pj + 1)
    (nw_score row_seq column_seq config (pi + 1) (pj + 1)) hjw hkb
  obtain ⟨hw', hlen', hnew, hold⟩ := AlignmentMatrix.get_mset hm'
  refine ⟨m', by rw [hcell]; exact hm', ?_, ?_, ?_, ?_, ?_⟩
  · rw [hw', hw]
  · rw [hlen', hlen]
  · intro j hj
    rw [hold 0 j (by omega)]
    exact hbrow j hj
  · intro i hi
    rw [hold i 0 (by omega)]
    exact hbcol i hi
  · intro i j hi hj hd
    by_cases he : i = pi ∧ j = pj
    · obtain ⟨he1, he2⟩ := he
      subst he1; subst he2
      exact hnew
    · rw [hold (i + 1) (j + 1) (by
        intro hc
        exact he ⟨by omega, by omega⟩)]
      refine hint i j hi hj ?_
      rcases hd with hd | hd
      · exact hd
      · exact absurd hd he

theorem cellSpec_sw (row_seq column_seq : List Letter) (config : LocalAlignmentConfig) :
    CellSpec row_seq.length column_seq.length (sw_score row_seq column_seq config)
      (compute_sw_matrix_cell row_seq column_seq config) := by
  intro done m pi pj hinv hpi hpj hdeps
  obtain ⟨hw, hlen, hbrow, hbcol, hint⟩ := hinv
  have hTL : m.get pi pj = some (sw_score row_seq column_seq config pi pj) := by
    match pi, pj, hdeps with
    | 0, pj, _ => exact hbrow pj (by omega)
    | pi + 1, 0, _ => exact hbcol (pi + 1) (by omega)
    | pi + 1, pj + 1, ⟨h1, _, _⟩ =>
      exact hint pi pj (by omega) (by omega) (h1 (by omega) (by omega))
  have hT : m.get pi (pj + 1) = some (sw_score row_seq column_seq config pi (pj + 1)) := by
    match pi, hdeps with
    | 0, _ => exact hbrow (pj + 1) (by omega)
    | pi + 1, ⟨_, h2, _⟩ => exact hint pi pj (by omega) hpj (h2 (by omega))
  have hL : m.get (pi + 1) pj = some (sw_score row_seq column_seq config (pi + 1) pj) := by
    match pj, hdeps with
    | 0, _ => exact hbcol (pi + 1) (by omega)
    | pj + 1, ⟨_, _, h3⟩ => exact hint pi pj hpi (by omega) (h3 (by omega))
  have hcell : compute_sw_matrix_cell row_seq column_seq config m pi pj
      = m.mset (pi + 1) (pj + 1) (sw_score row_seq column_seq config (pi + 1) (pj + 1)) := by
    simp only [compute_sw_matrix_cell, hTL, hT, hL, Option.bind_eq_bind, Option.some_bind]
    rw [sw_score_succ_succ]
  have hjw : pj + 1 < m.width := by omega
  have hkb : (pi + 1) * m.width + (pj + 1) < m.buf.length := by
    rw [hw, hlen]
    calc (pi + 1) * (column_seq.length + 1) + (pj + 1)
        < (pi + 1) * (column_seq.length + 1) + (column_seq.length + 1) := by omega
      _ = (pi + 2) * (column_seq.length + 1) := by ring
      _ ≤ (row_seq.length + 1) * (column_seq.length + 1) :=
          Nat.mul_le_mul_right _ (by omega)
  obtain ⟨m', hm'⟩ := AlignmentMatrix.mset_isSome m (pi + 1) (pj + 1)
    (sw_score row_seq column_seq config (pi + 1) (pj + 1)) hjw hkb
  obtain ⟨hw', hlen', hnew, hold⟩ := AlignmentMatrix.get_mset hm'
  refine ⟨m', by rw [hcell]; exact hm', ?_, ?_, ?_, ?_, ?_⟩
  · rw [hw', hw]
  · rw [hlen', hlen]
  · intro j hj
    rw [hold 0 j (by omega)]
    exact hbrow j hj
  · intro i hi
    rw [hold i 0 (by omega)]
    exact hbcol i hi
  · intro i j hi hj hd
    by_cases he : i = pi ∧ j = pj
    · obtain ⟨he1, he2⟩ := he
      subst he1; subst he2
      exact hnew
    · rw [hold (i + 1) (j + 1) (by
        intro hc
        exact he ⟨by omega, by omega⟩)]
      refine hint i j hi hj ?_
      rcases hd with hd | hd
      · exact hd
      · exact absurd hd he

/-! ## Correctness of the staircase content fill -/

/-- Membership helper for a row sweep's cell list. -/
theorem mem_row_cells {base_i base_j n i j : Nat} (hi : i = base_i) (hj1 : base_j ≤ j)
    (hj2 : j < base_j + n) :
    (i, j) ∈ (List.range' base_j n).map fun j => (base_i, j) := by
  refine List.mem_map.mpr ⟨j, List.mem_range'.mpr ⟨j - base_j, by omega, by omega⟩, by rw [hi]⟩

/-- Membership helper for a column sweep's cell list. -/
theorem mem_col_cells {base_i base_j n i j : Nat} (hj : j = base_j) (hi1 : base_i ≤ i)
    (hi2 : i < base_i + n) :
    (i, j) ∈ (List.range' base_i n).map fun i => (i, base_j) := by
  refine List.mem_map.mpr ⟨i, List.mem_range'.mpr ⟨i - base_i, by omega, by omega⟩, by rw [hj]⟩

theorem fill_nw_matrix_content_loop_spec (row_seq column_seq : List Letter)
    (config : GlobalAlignmentConfig) :
    ∀ (fuel base_i base_j : Nat) (m : AlignmentMatrix),
      column_seq.length ≤ base_j + fuel →
      (base_j < column_seq.length → base_i < row_seq.length) →
      FillInv row_seq.length column_seq.length (nw_score row_seq column_seq config)
        (fun i j => i < base_i ∨ j < base_j) m →
      ∃ m', fill_nw_matrix_content_loop row_seq column_seq config fuel m base_i base_j = some m' ∧
        FillInv row_seq.length column_seq.length (nw_score row_seq column_seq config)
          (fun _ _ => True) m' := by
  intro fuel
  induction fuel with
  | zero =>
    intro bi bj m hfuel _ hinv
    have hbj : column_seq.length ≤ bj := by omega
    simp only [fill_nw_matrix_content_loop, if_pos hbj]
    exact ⟨m, rfl, hinv.mono (fun i j _ hj _ => Or.inr (by omega))⟩
  | succ fuel ih =>
    intro bi bj m hfuel hguard hinv
    by_cases hbj : column_seq.length ≤ bj
    · simp only [fill_nw_matrix_content_loop, if_pos hbj]
      exact ⟨m, rfl, hinv.mono (fun i j _ hj _ => Or.inr (by omega))⟩
    · push_neg at hbj
      have hbi : bi < row_seq.length := hguard hbj
      have hseq := seqOK_row row_seq.length column_seq.length bi
        (column_seq.length - bj) bj (fun i j => i < bi ∨ j < bj) hbi (by omega)
        (fun i j hi => Or.inl hi) (fun hj => Or.inr (by omega))
      obtain ⟨m₁, hm₁, hinv₁⟩ :=
        foldlM_cells (cellSpec_nw row_seq column_seq config) _ _ m hinv hseq
      rw [List.foldlM_map] at hm₁
      have hinv₁' : FillInv row_seq.length column_seq.length
          (nw_score row_seq column_seq config) (fun i j => i < bi + 1 ∨ j < bj) m₁ := by
        refine hinv₁.mono (fun i j hi hj hd => ?_)
        rcases hd with hd | hd
        · rcases Nat.lt_or_ge i bi with h | h
          · exact Or.inl (Or.inl h)
          · rcases Nat.lt_or_ge j bj with h2 | h2
            · exact Or.inl (Or.inr h2)
            · exact Or.inr (mem_row_cells (by omega) (by omega) (by omega))
        · exact Or.inl (Or.inr hd)
      by_cases hbi1 : row_seq.length ≤ bi + 1
      · refine ⟨m₁, ?_, hinv₁'.mono (fun i j hi _ _ => Or.inl (by omega))⟩
        simp only [fill_nw_matrix_content_loop, if_neg (Nat.not_le.mpr hbj),
          Option.bind_eq_bind]
        rw [hm₁]
        simp [if_pos hbi1]
      · have hseq₂ := seqOK_col row_seq.length column_seq.length bj
          (row_seq.length - (bi + 1)) (bi + 1) (fun i j => i < bi + 1 ∨ j < bj) hbj (by omega)
          (fun i j hj => Or.inr hj) (fun _ => Or.inl (by omega))
        obtain ⟨m₂, hm₂, hinv₂⟩ :=
          foldlM_cells (cellSpec_nw row_seq column_seq config) _ _ m₁ hinv₁' hseq₂
        rw [List.foldlM_map] at hm₂
        have hinv₂' : FillInv row_seq.length column_seq.length
            (nw_score row_seq column_seq config) (fun i j => i < bi + 1 ∨ j < bj + 1) m₂ := by
          refine hinv₂.mono (fun i j hi hj hd => ?_)
          rcases hd with hd | hd
          · exact Or.inl (Or.inl hd)
          · rcases Nat.lt_or_ge j bj with h | h
            · exact Or.inl (Or.inr h)
            · rcases Nat.lt_or_ge i (bi + 1) with h2 | h2
              · exact Or.inl (Or.inl h2)
              · exact Or.inr (mem_col_cells (by omega) (by omega) (by omega))
        obtain ⟨m', hm', hinv'⟩ := ih (bi + 1) (bj + 1) m₂ (by omega)
          (fun _ => by omega) hinv₂'
        refine ⟨m', ?_, hinv'⟩
        simp only [fill_nw_matrix_content_loop, if_neg (Nat.not_le.mpr hbj),
          Option.bind_eq_bind]
        rw [hm₁]
        simp only [Option.some_bind, if_neg hbi1]
        rw [hm₂]
        simpa using hm'

theorem fill_sw_matrix_content_loop_spec (row_seq column_seq : List Letter)
    (config : LocalAlignmentConfig) :
    ∀ (fuel base_i base_j : Nat) (m : AlignmentMatrix),
      column_seq.length ≤ base_j + fuel →
      (base_j < column_seq.length → base_i < row_seq.length) →
      FillInv row_seq.length column_seq.length (sw_score row_seq column_seq config)
        (fun i j => i < base_i ∨ j < base_j) m →
      ∃ m', fill_sw_matrix_content_loop row_seq column_seq config fuel m base_i base_j = some m' ∧
        FillInv row_seq.length column_seq.length (sw_score row_seq column_seq config)
          (fun _ _ => True) m' := by
  intro fuel
  induction fuel with
  | zero =>
    intro bi bj m hfuel _ hinv
    have hbj : column_seq.length ≤ bj := by omega
    simp only [fill_sw_matrix_content_loop, if_pos hbj]
    exact ⟨m, rfl, hinv.mono (fun i j _ hj _ => Or.inr (by omega))⟩
  | succ fuel ih =>
    intro bi bj m hfuel hguard hinv
    by_cases hbj : column_seq.length ≤ bj
    · simp only [fill_sw_matrix_content_loop, if_pos hbj]
      exact ⟨m, rfl, hinv.mono (fun i j _ hj _ => Or.inr (by omega))⟩
    · push_neg at hbj
      have hbi : bi < row_seq.length := hguard hbj
      have hseq := seqOK_row row_seq.length column_seq.length bi
        (column_seq.length - bj) bj (fun i j => i < bi ∨ j < bj) hbi (by omega)
        (fun i j hi => Or.inl hi) (fun hj => Or.inr (by omega))
      obtain ⟨m₁, hm₁, hinv₁⟩ :=
        foldlM_cells (cellSpec_sw row_seq column_seq config) _ _ m hinv hseq
      rw [List.foldlM_map] at hm₁
      have hinv₁' : FillInv row_seq.length column_seq.length
          (sw_score row_seq column_seq config) (fun i j => i < bi + 1 ∨ j < bj) m₁ := by
        refine hinv₁.mono (fun i j hi hj hd => ?_)
        rcases hd with hd | hd
        · rcases Nat.lt_or_ge i bi with h | h
          · exact Or.inl (Or.inl h)
          · rcases Nat.lt_or_ge j bj with h2 | h2
            · exact Or.inl (Or.inr h2)
            · exact Or.inr (mem_row_cells (by omega) (by omega) (by omega))
        · exact Or.inl (Or.inr hd)
      by_cases hbi1 : row_seq.length ≤ bi + 1
      · refine ⟨m₁, ?_, hinv₁'.mono (fun i j hi _ _ => Or.inl (by omega))⟩
        simp only [fill_sw_matrix_content_loop, if_neg (Nat.not_le.mpr hbj),
          Option.bind_eq_bind]
        rw [hm₁]
        simp [if_pos hbi1]
      · have hseq₂ := seqOK_col row_seq.length column_seq.length bj
          (row_seq.length - (bi + 1)) (bi + 1) (fun i j => i < bi + 1 ∨ j < bj) hbj (by omega)
          (fun i j hj => Or.inr hj) (fun _ => Or.inl (by omega))
        obtain ⟨m₂, hm₂, hinv₂⟩ :=
          foldlM_cells (cellSpec_sw row_seq column_seq config) _ _ m₁ hinv₁' hseq₂
        rw [List.foldlM_map] at hm₂
        have hinv₂' : FillInv row_seq.length column_seq.length
            (sw_score row_seq column_seq config) (fun i j => i < bi + 1 ∨ j < bj + 1) m₂ := by
          refine hinv₂.mono (fun i j hi hj hd => ?_)
          rcases hd with hd | hd
          · exact Or.inl (Or.inl hd)
          · rcases Nat.lt_or_ge j bj with h | h
            · exact Or.inl (Or.inr h)
            · rcases Nat.lt_or_ge i (bi + 1) with h2 | h2
              · exact Or.inl (Or.inl h2)
              · exact Or.inr (mem_col_cells (by omega) (by omega) (by omega))
        obtain ⟨m', hm', hinv'⟩ := ih (bi + 1) (bj + 1) m₂ (by omega)
          (fun _ => by omega) hinv₂'
        refine ⟨m', ?_, hinv'⟩
        simp only [fill_sw_matrix_content_loop, if_neg (Nat.not_le.mpr hbj),
          Option.bind_eq_bind]
        rw [hm₁]
        simp only [Option.some_bind, if_neg hbi1]
        rw [hm₂]
        simpa using hm'

/-! ## Correctness of the border fill and the matrix bridges -/

/-- The row-0 border fold of `fill_nw_matrix_base`. -/
theorem fill_border_row_spec (g : Score) :
    ∀ (n s : Nat) (m : AlignmentMatrix), s + n ≤ m.width → m.width ≤ m.buf.length →
      ∃ m', (List.range' s n).foldlM (fun m j => m.mset 0 j ((j : Int) * g)) m = some m' ∧
        m'.width = m.width ∧ m'.buf.length = m.buf.length ∧
        (∀ j, s ≤ j → j < s + n → m'.get 0 j = some ((j : Int) * g)) ∧
        (∀ a b, ¬(a = 0 ∧ s ≤ b ∧ b < s + n) → m'.get a b = m.get a b) := by
  intro n
  induction n with
  | zero =>
    intro s m _ _
    exact ⟨m, rfl, rfl, rfl, fun j h1 h2 => by omega, fun a b _ => rfl⟩
  | succ n ih =>
    intro s m hs hwl
    have hsw : s < m.width := by omega
    obtain ⟨m₁, hm₁⟩ := AlignmentMatrix.mset_isSome m 0 s
      ((s : Int) * g) hsw (by simpa using Nat.lt_of_lt_of_le hsw hwl)
    obtain ⟨hw₁, hlen₁, hnew₁, hold₁⟩ := AlignmentMatrix.get_mset hm₁
    obtain ⟨m', hm', hw', hlen', hset', hold'⟩ := ih (s + 1) m₁ (by omega) (by omega)
    refine ⟨m', ?_, by omega, by omega, ?_, ?_⟩
    · simpa [List.range'_succ, hm₁] using hm'
    · intro j h1 h2
      rcases Nat.eq_or_lt_of_le h1 with he | hl
      · subst he
        rw [hold' 0 s (by omega)]
        exact hnew₁
      · exact hset' j (by omega) (by omega)
    · intro a b hab
      rw [hold' a b (by omega), hold₁ a b (by omega)]

/-- The column-0 border fold of `fill_nw_matrix_base`. -/
theorem fill_border_col_spec (g : Score) :
    ∀ (n s : Nat) (m : AlignmentMatrix), 0 < m.width →
      (∀ i, i < s + n → i * m.width < m.buf.length) →
      ∃ m', (List.range' s n).foldlM (fun m i => m.mset i 0 ((i : Int) * g)) m = some m' ∧
        m'.width = m.width ∧ m'.buf.length = m.buf.length ∧
        (∀ i, s ≤ i → i < s + n → m'.get i 0 = some ((i : Int) * g)) ∧
        (∀ a b, ¬(b = 0 ∧ s ≤ a ∧ a < s + n) → m'.get a b = m.get a b) := by
  intro n
  induction n with
  | zero =>
    intro s m _ _
    exact ⟨m, rfl, rfl, rfl, fun i h1 h2 => by omega, fun a b _ => rfl⟩
  | succ n ih =>
    intro s m hw0 hbound
    obtain ⟨m₁, hm₁⟩ := AlignmentMatrix.mset_isSome m s 0
      ((s : Int) * g) hw0 (by simpa using hbound s (by omega))
    obtain ⟨hw₁, hlen₁, hnew₁, hold₁⟩ := AlignmentMatrix.get_mset hm₁
    obtain ⟨m', hm', hw', hlen', hset', hold'⟩ := ih (s + 1) m₁ (by omega)
      (by intro i hi; rw [hw₁, hlen₁]; exact hbound i (by omega))
    refine ⟨m', ?_, by omega, by omega, ?_, ?_⟩
    · simpa [List.range'_succ, hm₁] using hm'
    · intro i h1 h2
      rcases Nat.eq_or_lt_of_le h1 with he | hl
      · subst he
        rw [hold' s 0 (by omega)]
        exact hnew₁
      · exact hset' i (by omega) (by omega)
    · intro a b hab
      rw [hold' a b (by omega), hold₁ a b (by omega)]

/-- `fill_nw_matrix_base` on a freshly zeroed matrix establishes the fill
invariant with no interior cell done. -/
theorem fill_nw_matrix_base_spec (row_seq column_seq : List Letter)
    (config : GlobalAlignmentConfig) :
    ∃ m, fill_nw_matrix_base row_seq column_seq config
        (AlignmentMatrix.zeroed (row_seq.length + 1) (column_seq.length + 1)) = some m ∧
      FillInv row_seq.length column_seq.length (nw_score row_seq column_seq config)
        (fun _ _ => False) m := by
  have hw0 : (AlignmentMatrix.zeroed (row_seq.length + 1) (column_seq.length + 1)).width
      = column_seq.length + 1 := rfl
  have hlen0 : (AlignmentMatrix.zeroed (row_seq.length + 1) (column_seq.length + 1)).buf.length
      = (row_seq.length + 1) * (column_seq.length + 1) := by
    simp [AlignmentMatrix.zeroed]
  obtain ⟨m1, hm1, hw1, hlen1, hset1, hold1⟩ :=
    fill_border_row_spec config.gap_penalty column_seq.length 1
      (AlignmentMatrix.zeroed (row_seq.length + 1) (column_seq.length + 1))
      (by omega)
      (by rw [hw0, hlen0]; exact Nat.le_mul_of_pos_left _ (by omega))
  obtain ⟨m2, hm2, hw2, hlen2, hset2, hold2⟩ :=
    fill_border_col_spec config.gap_penalty row_seq.length 1 m1 (by omega)
      (by
        intro i hi
        rw [hw1, hw0, hlen1, hlen0]
        have he : (i + 1) * (column_seq.length + 1)
            = i * (column_seq.length + 1) + (column_seq.length + 1) := by ring
        have hle : (i + 1) * (column_seq.length + 1)
            ≤ (row_seq.length + 1) * (column_seq.length + 1) :=
          Nat.mul_le_mul_right _ (by omega)
        omega)
  have hzero : ∀ i j, i ≤ row_seq.length → j ≤ column_seq.length →
      (AlignmentMatrix.zeroed (row_seq.length + 1) (column_seq.length + 1)).get i j
        = some 0 := by
    intro i j hi hj
    exact AlignmentMatrix.zeroed_get (by omega) (by omega)
  refine ⟨m2, ?_, by omega, by omega, ?_, ?_, ?_⟩
  · rw [fill_nw_matrix_base, hm1]
    simpa using hm2
  · intro j hj
    rcases Nat.eq_zero_or_pos j with hj0 | hjp
    · subst hj0
      rw [hold2 0 0 (by omega), hold1 0 0 (by omega), hzero 0 0 (by omega) (by omega),
        nw_score_zero_left]
      simp
    · rw [hold2 0 j (by omega), hset1 j (by omega) (by omega), nw_score_zero_left]
  · intro i hi
    rcases Nat.eq_zero_or_pos i with hi0 | hip
    · subst hi0
      rw [hold2 0 0 (by omega), hold1 0 0 (by omega), hzero 0 0 (by omega) (by omega),
        nw_score_zero_right]
      simp
    · rw [hset2 i (by omega) (by omega), nw_score_zero_right]
  · intro i j _ _ hd
    exact absurd hd (by simp)

/-- A freshly zeroed matrix already satisfies the Smith-Waterman fill
invariant (its borders are 0, which is `sw_score` on the borders). -/
theorem zeroed_sw_fillInv (row_seq column_seq : List Letter)
    (config : LocalAlignmentConfig) :
    FillInv row_seq.length column_seq.length (sw_score row_seq column_seq config)
      (fun _ _ => False)
      (AlignmentMatrix.zeroed (row_seq.length + 1) (column_seq.length + 1)) := by
  refine ⟨rfl, by simp [AlignmentMatrix.zeroed], ?_, ?_, ?_⟩
  · intro j hj
    rw [AlignmentMatrix.zeroed_get (by omega) (by omega), sw_score_zero_left]
  · intro i hi
    rw [AlignmentMatrix.zeroed_get (by omega) (by omega), sw_score_zero_right]
  · intro i j _ _ hd
    exact absurd hd (by simp)

/-- The staircase fill computes the canonical Needleman-Wunsch matrix —
provided the row sequence is non-empty or the column sequence is empty
(otherwise the staircase's first row sweep writes out of bounds). -/
theorem compute_nw_matrix_eq_canonical (row_seq column_seq : List Letter)
    (config : GlobalAlignmentConfig)
    (h : 0 < row_seq.length ∨ column_seq.length = 0) :
    compute_nw_matrix row_seq column_seq config =
      some (nw_canonical row_seq column_seq config) := by
  obtain ⟨m₁, hm₁, hinv₁⟩ := fill_nw_matrix_base_spec row_seq column_seq config
  obtain ⟨m', hm', hinv'⟩ := fill_nw_matrix_content_loop_spec row_seq column_seq config
    column_seq.length 0 0 m₁ (by omega) (fun hc => by omega)
    (hinv₁.mono (fun i j _ _ hd => by omega))
  rw [compute_nw_matrix, hm₁]
  simp only [Option.bind_eq_bind, Option.some_bind]
  rw [fill_nw_matrix_content, hm']
  rw [hinv'.eq_canonical]
  rfl

/-- The staircase fill computes the canonical Smith-Waterman matrix, under
the same proviso. -/
theorem compute_sw_matrix_eq_canonical (row_seq column_seq : List Letter)
    (config : LocalAlignmentConfig)
    (h : 0 < row_seq.length ∨ column_seq.length = 0) :
    compute_sw_matrix row_seq column_seq config =
      some (sw_canonical row_seq column_seq config) := by
  obtain ⟨m', hm', hinv'⟩ := fill_sw_matrix_content_loop_spec row_seq column_seq config
    column_seq.length 0 0 _ (by omega) (fun hc => by omega)
    ((zeroed_sw_fillInv row_seq column_seq config).mono (fun i j _ _ hd => by omega))
  rw [compute_sw_matrix, fill_sw_matrix_content, hm']
  rw [hinv'.eq_canonical]
  rfl

/-- Reading a cell of a canonical matrix. -/
theorem canonical_get (rl cl : Nat) (f : Nat → Nat → Score) {i j : Nat}
    (hi : i ≤ rl) (hj : j ≤ cl) :
    (AlignmentMatrix.mk
      ((List.range ((rl + 1) * (cl + 1))).map fun k => f (k / (cl + 1)) (k % (cl + 1)))
      (cl + 1)).get i j = some (f i j) := by
  rw [AlignmentMatrix.get_def]
  simp only
  rw [if_neg (by omega)]
  have hk : i * (cl + 1) + j < (rl + 1) * (cl + 1) := by
    have he : (i + 1) * (cl + 1) = i * (cl + 1) + (cl + 1) := by ring
    have hle : (i + 1) * (cl + 1) ≤ (rl + 1) * (cl + 1) :=
      Nat.mul_le_mul_right _ (by omega)
    omega
  rw [List.get?_eq_getElem?, List.getElem?_map]
  have hr : (List.range ((rl + 1) * (cl + 1)))[i * (cl + 1) + j]? = some (i * (cl + 1) + j) := by
    simp [List.getElem?_range, hk]
  rw [hr]
  have hdiv : (i * (cl + 1) + j) / (cl + 1) = i := by
    rw [Nat.mul_comm i (cl + 1), Nat.mul_add_div (by omega), Nat.div_eq_of_lt (by omega)]
    omega
  have hmod : (i * (cl + 1) + j) % (cl + 1) = j := by
    rw [Nat.mul_comm i (cl + 1), Nat.mul_add_mod, Nat.mod_eq_of_lt (by omega)]
  simp [hdiv, hmod]

theorem nw_canonical_get (row_seq column_seq : List Letter) (config : GlobalAlignmentConfig)
    {i j : Nat} (hi : i ≤ row_seq.length) (hj : j ≤ column_seq.length) :
    (nw_canonical row_seq column_seq config).get i j =
      some (nw_score row_seq column_seq config i j) :=
  canonical_get row_seq.length column_seq.length (nw_score row_seq column_seq config) hi hj

theorem sw_canonical_get (row_seq column_seq : List Letter) (config : LocalAlignmentConfig)
    {i j : Nat} (hi : i ≤ row_seq.length) (hj : j ≤ column_seq.length) :
    (sw_canonical row_seq column_seq config).get i j =
      some (sw_score row_seq column_seq config i j) :=
  canonical_get row_seq.length column_seq.length (sw_score row_seq column_seq config) hi hj

theorem nw_canonical_height (row_seq column_seq : List Letter)
    (config : GlobalAlignmentConfig) :
    (nw_canonical row_seq column_seq config).height = row_seq.length + 1 := by
  show ((List.range ((row_seq.length + 1) * (column_seq.length + 1))).map _).length
      / (column_seq.length + 1) = row_seq.length + 1
  rw [List.length_map, List.length_range, Nat.mul_div_cancel _ (by omega)]

theorem sw_canonical_height (row_seq column_seq : List Letter)
    (config : LocalAlignmentConfig) :
    (sw_canonical row_seq column_seq config).height = row_seq.length + 1 := by
  show ((List.range ((row_seq.length + 1) * (column_seq.length + 1))).map _).length
      / (column_seq.length + 1) = row_seq.length + 1
  rw [List.length_map, List.length_range, Nat.mul_div_cancel _ (by omega)]

/-- The staircase fill panics (returns `none`) when the row sequence is empty
but the column sequence is not: its first row sweep writes to row 1 of a
height-1 matrix. -/
theorem compute_nw_matrix_none (row_seq column_seq : List Letter)
    (config : GlobalAlignmentConfig) (h0 : row_seq.length = 0)
    (h1 : 0 < column_seq.length) :
    compute_nw_matrix row_seq column_seq config = none := by
  obtain ⟨m1, hm1, hinv1⟩ := fill_nw_matrix_base_spec row_seq column_seq config
  obtain ⟨hw1, hlen1, hbrow1, hbcol1, _⟩ := hinv1
  rw [compute_nw_matrix, hm1]
  simp only [Option.bind_eq_bind, Option.some_bind]
  rw [fill_nw_matrix_content]
  obtain ⟨k, hk⟩ : ∃ k, column_seq.length = k + 1 := ⟨column_seq.length - 1, by omega⟩
  rw [hk]
  simp only [fill_nw_matrix_content_loop, if_neg (show ¬ column_seq.length ≤ 0 by omega)]
  have hrange : List.range' 0 (column_seq.length - 0) =
      0 :: List.range' 1 (column_seq.length - 1) := by
    have he : column_seq.length - 0 = (column_seq.length - 1) + 1 := by omega
    rw [he, List.range'_succ]
  rw [hrange, List.foldlM_cons]
  have hcell : compute_nw_matrix_cell row_seq column_seq config m1 0 0 = none := by
    have hg00 : m1.get 0 0 = some (nw_score row_seq column_seq config 0 0) :=
      hbrow1 0 (by omega)
    have hg01 : m1.get 0 1 = some (nw_score row_seq column_seq config 0 1) :=
      hbrow1 1 (by omega)
    have hg10 : m1.get 1 0 = none := by
      rw [AlignmentMatrix.get_def, if_neg (by omega)]
      refine List.get?_eq_none.mpr ?_
      rw [hlen1, hw1, h0]
      have he1 : 1 * (column_seq.length + 1) + 0 = column_seq.length + 1 := by ring
      have he2 : (0 + 1) * (column_seq.length + 1) = column_seq.length + 1 := by ring
      omega
    simp [compute_nw_matrix_cell, hg00, hg01, hg10]
  rw [hcell]
  simp

/-- As `compute_nw_matrix_none`, for the local fill. -/
theorem compute_sw_matrix_none (row_seq column_seq : List Letter)
    (config : LocalAlignmentConfig) (h0 : row_seq.length = 0)
    (h1 : 0 < column_seq.length) :
    compute_sw_matrix row_seq column_seq config = none := by
  have hinv1 := zeroed_sw_fillInv row_seq column_seq config
  rw [compute_sw_matrix, fill_sw_matrix_content]
  generalize hG : AlignmentMatrix.zeroed (row_seq.length + 1) (column_seq.length + 1) = m1
    at hinv1 ⊢
  obtain ⟨hw1, hlen1, hbrow1, hbcol1, _⟩ := hinv1
  obtain ⟨k, hk⟩ : ∃ k, column_seq.length = k + 1 := ⟨column_seq.length - 1, by omega⟩
  rw [hk]
  simp only [fill_sw_matrix_content_loop, if_neg (show ¬ column_seq.length ≤ 0 by omega)]
  have hrange : List.range' 0 (column_seq.length - 0) =
      0 :: List.range' 1 (column_seq.length - 1) := by
    have he : column_seq.length - 0 = (column_seq.length - 1) + 1 := by omega
    rw [he, List.range'_succ]
  rw [hrange, List.foldlM_cons]
  have hcell : compute_sw_matrix_cell row_seq column_seq config m1 0 0 = none := by
    have hg00 : m1.get 0 0 = some (sw_score row_seq column_seq config 0 0) :=
      hbrow1 0 (by omega)
    have hg01 : m1.get 0 1 = some (sw_score row_seq column_seq config 0 1) :=
      hbrow1 1 (by omega)
    have hg10 : m1.get 1 0 = none := by
      rw [AlignmentMatrix.get_def, if_neg (by omega)]
      refine List.get?_eq_none.mpr ?_
      rw [hlen1, hw1, h0]
      have he1 : 1 * (column_seq.length + 1) + 0 = column_seq.length + 1 := by ring
      have he2 : (0 + 1) * (column_seq.length + 1) = column_seq.length + 1 := by ring
      omega
    simp [compute_sw_matrix_cell, hg00, hg01, hg10]
  rw [hcell]
  simp

/-- If the Needleman-Wunsch fill returns a matrix, it is the canonical one. -/
theorem compute_nw_matrix_some_eq {row_seq column_seq : List Letter}
    {config : GlobalAlignmentConfig} {m : AlignmentMatrix}
    (h : compute_nw_matrix row_seq column_seq config = some m) :
    m = nw_canonical row_seq column_seq config := by
  by_cases hc : 0 < row_seq.length ∨ column_seq.length = 0
  · rw [compute_nw_matrix_eq_canonical row_seq column_seq config hc] at h
    exact (Option.some.inj h).symm
  · push_neg at hc
    rw [compute_nw_matrix_none row_seq column_seq config (by omega) (by omega)] at h
    cases h

/-- If the Smith-Waterman fill returns a matrix, it is the canonical one. -/
theorem compute_sw_matrix_some_eq {row_seq column_seq : List Letter}
    {config : LocalAlignmentConfig} {m : AlignmentMatrix}
    (h : compute_sw_matrix row_seq column_seq config = some m) :
    m = sw_canonical row_seq column_seq config := by
  by_cases hc : 0 < row_seq.length ∨ column_seq.length = 0
  · rw [compute_sw_matrix_eq_canonical row_seq column_seq config hc] at h
    exact (Option.some.inj h).symm
  · push_neg at hc
    rw [compute_sw_matrix_none row_seq column_seq config (by omega) (by omega)] at h
    cases h

/-! ## Correctness of the row-major fill (spec-side traversal) -/

theorem foldlM_rows {rl cl : Nat} {f : Nat → Nat → Score}
    {cell : AlignmentMatrix → Nat → Nat → Option AlignmentMatrix}
    (hcell : CellSpec rl cl f cell) :
    ∀ (n i0 : Nat) (m : AlignmentMatrix), i0 + n ≤ rl →
      FillInv rl cl f (fun i _ => i < i0) m →
      ∃ m', (List.range' i0 n).foldlM
          (fun m i => (List.range cl).foldlM (fun m j => cell m i j) m) m = some m' ∧
        FillInv rl cl f (fun i _ => i < i0 + n) m' := by
  intro n
  induction n with
  | zero =>
    intro i0 m _ hinv
    exact ⟨m, rfl, hinv.mono (fun i j _ _ hd => by omega)⟩
  | succ n ih =>
    intro i0 m hn hinv
    have hseq := seqOK_row rl cl i0 cl 0 (fun i _ => i < i0)
      (by omega) (by omega) (fun i j hi => hi) (by omega)
    obtain ⟨m₁, hm₁, hinv₁⟩ := foldlM_cells hcell _ _ m hinv hseq
    rw [List.foldlM_map] at hm₁
    have hinv₁' : FillInv rl cl f (fun i _ => i < i0 + 1) m₁ := by
      refine hinv₁.mono (fun i j hi hj hd => ?_)
      rcases Nat.lt_or_ge i i0 with h | h
      · exact Or.inl h
      · exact Or.inr (mem_row_cells (by omega) (by omega) (by omega))
    obtain ⟨m', hm', hinv'⟩ := ih (i0 + 1) m₁ (by omega) hinv₁'
    refine ⟨m', ?_, hinv'.mono (fun i j _ _ hd => by omega)⟩
    rw [← List.range_eq_range'] at hm₁
    rw [List.range'_succ, List.foldlM_cons, hm₁]
    simpa using hm'

theorem compute_nw_matrix_row_major_eq (row_seq column_seq : List Letter)
    (config : GlobalAlignmentConfig) :
    compute_nw_matrix_row_major row_seq column_seq config =
      some (nw_canonical row_seq column_seq config) := by
  obtain ⟨m₁, hm₁, hinv₁⟩ := fill_nw_matrix_base_spec row_seq column_seq config
  obtain ⟨m', hm', hinv'⟩ := foldlM_rows (cellSpec_nw row_seq column_seq config)
    row_seq.length 0 m₁ (by omega) (hinv₁.mono (fun i j _ _ hd => by omega))
  rw [compute_nw_matrix_row_major, hm₁]
  simp only [Option.bind_eq_bind, Option.some_bind]
  rw [fill_nw_matrix_content_row_major, List.range_eq_range' row_seq.length, hm']
  rw [(hinv'.mono (fun i j hi _ _ => by omega)).eq_canonical]
  rfl

theorem compute_sw_matrix_row_major_eq (row_seq column_seq : List Letter)
    (config : LocalAlignmentConfig) :
    compute_sw_matrix_row_major row_seq column_seq config =
      some (sw_canonical row_seq column_seq config) := by
  obtain ⟨m', hm', hinv'⟩ := foldlM_rows (cellSpec_sw row_seq column_seq config)
    row_seq.length 0 _ (by omega)
    ((zeroed_sw_fillInv row_seq column_seq config).mono (fun i j _ _ hd => by omega))
  rw [compute_sw_matrix_row_major, fill_sw_matrix_content_row_major,
    List.range_eq_range' row_seq.length, hm']
  rw [(hinv'.mono (fun i j hi _ _ => by omega)).eq_canonical]
  rfl

/-! ## The global traceback on the canonical matrix -/

/-- On the canonical matrix, the per-cell step choice of the global traceback
is exactly the Up-then-Left-then-Diagonal priority rule expressed on
`nw_score`. -/
theorem nw_choose_step_canonical (row_seq column_seq : List Letter)
    (config : GlobalAlignmentConfig) {i j : Nat}
    (hi : i ≤ row_seq.length) (hj : j ≤ column_seq.length) :
    nw_choose_step config (nw_canonical row_seq column_seq config) i j =
      some (if 0 < i ∧ nw_score row_seq column_seq config i j =
              nw_score row_seq column_seq config (i - 1) j + config.gap_penalty
            then TracebackStep.Top
            else if 0 < j ∧ nw_score row_seq column_seq config i j =
              nw_score row_seq column_seq config i (j - 1) + config.gap_penalty
            then TracebackStep.Left
            else TracebackStep.TopLeft) := by
  simp only [nw_choose_step, nw_canonical_get row_seq column_seq config hi hj,
    Option.bind_eq_bind, Option.some_bind]
  by_cases h0i : 0 < i
  · have hgi := nw_canonical_get row_seq column_seq config
      (show i - 1 ≤ row_seq.length by omega) hj
    simp only [h0i, if_true, hgi, Option.some_bind]
    by_cases hT : nw_score row_seq column_seq config i j =
        nw_score row_seq column_seq config (i - 1) j + config.gap_penalty
    · simp [hT, h0i]
    · simp only [hT, if_false, Option.some_bind]
      by_cases h0j : 0 < j
      · have hgj := nw_canonical_get row_seq column_seq config hi
          (show j - 1 ≤ column_seq.length by omega)
        simp only [h0j, if_true, hgj, Option.some_bind]
        by_cases hL : nw_score row_seq column_seq config i j =
            nw_score row_seq column_seq config i (j - 1) + config.gap_penalty
        · simp [hL, hT, h0j]
        · simp [hL, hT]
      · simp [h0j, hT]
  · simp only [h0i, if_false, Option.some_bind]
    by_cases h0j : 0 < j
    · have hgj := nw_canonical_get row_seq column_seq config hi
        (show j - 1 ≤ column_seq.length by omega)
      simp only [h0j, if_true, hgj, Option.some_bind]
      by_cases hL : nw_score row_seq column_seq config i j =
          nw_score row_seq column_seq config i (j - 1) + config.gap_penalty
      · simp [hL, h0i, h0j]
      · simp [hL, h0i]
    · simp [h0i, h0j]

/-- The border-row score test: at row index 0 the Left reverse-recurrence test
always succeeds, by the border initialisation. -/
theorem nw_border_left_test (row_seq column_seq : List Letter)
    (config : GlobalAlignmentConfig) {j : Nat} (hj : 0 < j) :
    nw_score row_seq column_seq config 0 j =
      nw_score row_seq column_seq config 0 (j - 1) + config.gap_penalty := by
  rw [nw_score_zero_left, nw_score_zero_left, Nat.cast_sub (by omega : 1 ≤ j)]
  push_cast
  ring

/-- The border-column score test: at column index 0 the Up reverse-recurrence
test always succeeds, by the border initialisation. -/
theorem nw_border_top_test (row_seq column_seq : List Letter)
    (config : GlobalAlignmentConfig) {i : Nat} (hi : 0 < i) :
    nw_score row_seq column_seq config i 0 =
      nw_score row_seq column_seq config (i - 1) 0 + config.gap_penalty := by
  rw [nw_score_zero_right, nw_score_zero_right, Nat.cast_sub (by omega : 1 ≤ i)]
  push_cast
  ring

/-- At row index 0 (and column index positive) the chooser takes `Left`. -/
theorem nw_choose_step_row0 (row_seq column_seq : List Letter)
    (config : GlobalAlignmentConfig) {j : Nat} (hj0 : 0 < j) (hj : j ≤ column_seq.length) :
    nw_choose_step config (nw_canonical row_seq column_seq config) 0 j =
      some TracebackStep.Left := by
  rw [nw_choose_step_canonical row_seq column_seq config (by omega) hj]
  rw [if_neg (by simp), if_pos ⟨hj0, nw_border_left_test row_seq column_seq config hj0⟩]

/-- At column index 0 (and row index positive) the chooser takes `Top`. -/
theorem nw_choose_step_col0 (row_seq column_seq : List Letter)
    (config : GlobalAlignmentConfig) {i : Nat} (hi0 : 0 < i) (hi : i ≤ row_seq.length) :
    nw_choose_step config (nw_canonical row_seq column_seq config) i 0 =
      some TracebackStep.Top := by
  rw [nw_choose_step_canonical row_seq column_seq config hi (by omega)]
  rw [if_pos ⟨hi0, nw_border_top_test row_seq column_seq config hi0⟩]

/-- Totality of the global traceback loop on the canonical matrix: the
`TopLeft` fallback is never taken at a border, so the loop always reaches
`(0, 0)` without an index underflow. -/
theorem traceback_nw_loop_isSome (row_seq column_seq : List Letter)
    (config : GlobalAlignmentConfig) :
    ∀ (fuel i j : Nat) (res : GlobalAlignmentResult), i + j ≤ fuel →
      i ≤ row_seq.length → j ≤ column_seq.length →
      (traceback_nw_loop row_seq column_seq config (nw_canonical row_seq column_seq config)
        fuel i j res).isSome := by
  intro fuel
  induction fuel with
  | zero =>
    intro i j res hf _ _
    have hij : i = 0 ∧ j = 0 := by omega
    simp [traceback_nw_loop, hij]
  | succ fuel ih =>
    intro i j res hf hi hj
    by_cases hij : i = 0 ∧ j = 0
    · simp [traceback_nw_loop, hij]
    · by_cases hT : 0 < i ∧ nw_score row_seq column_seq config i j =
          nw_score row_seq column_seq config (i - 1) j + config.gap_penalty
      · have hc := nw_choose_step_canonical row_seq column_seq config hi hj
        rw [if_pos hT] at hc
        simp only [traceback_nw_loop, hij, if_false, hc]
        exact ih (i - 1) j _ (by omega) (by omega) hj
      · by_cases hL : 0 < j ∧ nw_score row_seq column_seq config i j =
            nw_score row_seq column_seq config i (j - 1) + config.gap_penalty
        · have hc := nw_choose_step_canonical row_seq column_seq config hi hj
          rw [if_neg hT, if_pos hL] at hc
          simp only [traceback_nw_loop, hij, if_false, hc]
          exact ih i (j - 1) _ (by omega) hi (by omega)
        · have h0i : 0 < i := by
            by_contra h0i
            have hi0 : i = 0 := by omega
            have hj0 : 0 < j := by omega
            subst hi0
            exact hL ⟨hj0, nw_border_left_test row_seq column_seq config hj0⟩
          have h0j : 0 < j := by
            by_contra h0j
            have hj0 : j = 0 := by omega
            subst hj0
            exact hT ⟨h0i, nw_border_top_test row_seq column_seq config h0i⟩
          have hc := nw_choose_step_canonical row_seq column_seq config hi hj
          rw [if_neg hT, if_neg hL] at hc
          simp only [traceback_nw_loop, hij, if_false, hc, if_pos (And.intro h0i h0j)]
          exact ih (i - 1) (j - 1) _ (by omega) (by omega) (by omega)

/-- Totality of `traceback_nw_best_alignment` on the canonical matrix. -/
theorem traceback_nw_best_alignment_isSome (row_seq column_seq : List Letter)
    (config : GlobalAlignmentConfig) :
    (traceback_nw_best_alignment row_seq column_seq config
      (nw_canonical row_seq column_seq config)).isSome := by
  rw [traceback_nw_best_alignment]
  rw [nw_canonical_height]
  have hwidth : (nw_canonical row_seq column_seq config).width = column_seq.length + 1 := rfl
  rw [hwidth]
  simp only [Nat.add_sub_cancel]
  rw [nw_canonical_get row_seq column_seq config (by omega) (by omega)]
  simp only [Option.bind_eq_bind, Option.some_bind]
  have hs := traceback_nw_loop_isSome row_seq column_seq config
    (row_seq.length + column_seq.length) row_seq.length column_seq.length
    { aligned_row_seq := [], aligned_column_seq := []
      score := nw_score row_seq column_seq config row_seq.length column_seq.length
      identity_numer := 0, identity_denom := 0 }
    (by omega) (by omega) (by omega)
  obtain ⟨r, hr⟩ := Option.isSome_iff_exists.mp hs
  rw [hr]
  simp

/-! ## Letter and recomputation helpers -/

theorem normalize_letter_get_mem {row_seq : List Letter} {i : Nat} (hi : i < row_seq.length) :
    normalize_letter (row_seq.get? i) ∈ row_seq := by
  rw [List.get?_eq_getElem?, List.getElem?_eq_getElem hi]
  show row_seq[i] ∈ row_seq
  exact List.getElem_mem hi

theorem normalize_letter_ne_gap {row_seq : List Letter} {i : Nat} (hi : i < row_seq.length)
    (hR : GAP ∉ row_seq) : normalize_letter (row_seq.get? i) ≠ GAP :=
  fun h => hR (h ▸ normalize_letter_get_mem hi)

theorem pair_weight_gap_right (match_w mismatch_w gap_w : Score) (a : Letter) :
    pair_weight match_w mismatch_w gap_w a GAP = gap_w := by
  simp [pair_weight]

theorem pair_weight_gap_left (match_w mismatch_w gap_w : Score) (b : Letter) :
    pair_weight match_w mismatch_w gap_w GAP b = gap_w := by
  simp [pair_weight]

theorem pair_weight_no_gap (match_w mismatch_w gap_w : Score) {a b : Letter}
    (ha : a ≠ GAP) (hb : b ≠ GAP) :
    pair_weight match_w mismatch_w gap_w a b = if a = b then match_w else mismatch_w := by
  rw [pair_weight, if_neg (by tauto)]

theorem recompute_score_nil (match_w mismatch_w gap_w : Score) :
    recompute_score match_w mismatch_w gap_w [] [] = 0 := rfl

theorem recompute_score_cons (match_w mismatch_w gap_w : Score) (a b : Letter)
    (xs ys : List Letter) :
    recompute_score match_w mismatch_w gap_w (a :: xs) (b :: ys) =
      pair_weight match_w mismatch_w gap_w a b +
        recompute_score match_w mismatch_w gap_w xs ys := by
  simp [recompute_score, List.zip_cons_cons]

/-- Recomputation is invariant under simultaneously reversing both sides,
when both sides have the same length. -/
theorem recompute_score_reverse (match_w mismatch_w gap_w : Score) :
    ∀ (xs ys : List Letter), xs.length = ys.length →
      recompute_score match_w mismatch_w gap_w xs.reverse ys.reverse =
        recompute_score match_w mismatch_w gap_w xs ys := by
  intro xs
  induction xs with
  | nil =>
    intro ys hlen
    have : ys = [] := by
      cases ys with
      | nil => rfl
      | cons b ys => simp at hlen
    subst this
    rfl
  | cons a xs ih =>
    intro ys hlen
    cases ys with
    | nil => simp at hlen
    | cons b ys =>
      simp only [List.length_cons, Nat.add_right_cancel_iff] at hlen
      simp only [List.reverse_cons]
      rw [recompute_score_cons]
      have hzip : (xs.reverse ++ [a]).zip (ys.reverse ++ [b]) =
          xs.reverse.zip ys.reverse ++ [(a, b)] :=
        List.zip_append (by simp [hlen])
      rw [recompute_score, hzip, List.map_append, List.sum_append]
      rw [show ((([(a, b)]).map fun p => pair_weight match_w mismatch_w gap_w p.1 p.2).sum)
          = pair_weight match_w mismatch_w gap_w a b by simp]
      rw [show ((xs.reverse.zip ys.reverse).map
            fun p => pair_weight match_w mismatch_w gap_w p.1 p.2).sum
          = recompute_score match_w mismatch_w gap_w xs.reverse ys.reverse from rfl]
      rw [ih ys hlen]
      ring

/-! ## Identity-counter invariants (claim C8) -/

/-- The global traceback loop preserves `numer ≤ denom` (over any matrix). -/
theorem traceback_nw_loop_identity (row_seq column_seq : List Letter)
    (config : GlobalAlignmentConfig) (matrix : AlignmentMatrix) :
    ∀ (fuel i j : Nat) (res r : GlobalAlignmentResult),
      traceback_nw_loop row_seq column_seq config matrix fuel i j res = some r →
      res.identity_numer ≤ res.identity_denom →
      r.identity_numer ≤ r.identity_denom := by
  intro fuel
  induction fuel with
  | zero =>
    intro i j res r hsome hle
    by_cases hij : i = 0 ∧ j = 0
    · simp only [traceback_nw_loop, if_pos hij, Option.some.injEq] at hsome
      exact hsome ▸ hle
    · simp [traceback_nw_loop, hij] at hsome
  | succ fuel ih =>
    intro i j res r hsome hle
    by_cases hij : i = 0 ∧ j = 0
    · simp only [traceback_nw_loop, if_pos hij, Option.some.injEq] at hsome
      exact hsome ▸ hle
    · simp only [traceback_nw_loop, if_neg hij] at hsome
      cases hstep : nw_choose_step config matrix i j with
      | none => rw [hstep] at hsome; cases hsome
      | some step =>
        rw [hstep] at hsome
        cases step with
        | Top =>
          exact ih _ _ _ _ hsome (by simpa [traceback_nw_top] using hle)
        | Left =>
          exact ih _ _ _ _ hsome (by simpa [traceback_nw_left] using hle)
        | TopLeft =>
          by_cases hpos : 0 < i ∧ 0 < j
          · rw [if_pos hpos] at hsome
            refine ih _ _ _ _ hsome ?_
            simp only [traceback_nw_top_left]
            split <;> omega
          · rw [if_neg hpos] at hsome
            cases hsome

/-- The local traceback loop preserves `numer ≤ denom` (over any matrix). -/
theorem traceback_sw_loop_identity (row_seq column_seq : List Letter)
    (config : LocalAlignmentConfig) (matrix : AlignmentMatrix) :
    ∀ (fuel i j : Nat) (res r : LocalAlignmentResult),
      traceback_sw_loop row_seq column_seq config matrix fuel i j res = some r →
      res.identity_numer ≤ res.identity_denom →
      r.identity_numer ≤ r.identity_denom := by
  intro fuel
  induction fuel with
  | zero =>
    intro i j res r hsome hle
    rw [traceback_sw_loop] at hsome
    cases hget : matrix.get i j with
    | none => rw [hget] at hsome; dsimp only at hsome; cases hsome
    | some cur =>
      rw [hget] at hsome
      dsimp only at hsome
      by_cases hcur : cur = 0
      · rw [if_pos hcur] at hsome
        exact (Option.some.inj hsome) ▸ hle
      · rw [if_neg hcur] at hsome
        cases hsome
  | succ fuel ih =>
    intro i j res r hsome hle
    rw [traceback_sw_loop] at hsome
    cases hget : matrix.get i j with
    | none => rw [hget] at hsome; dsimp only at hsome; cases hsome
    | some cur =>
      rw [hget] at hsome
      dsimp only at hsome
      by_cases hcur : cur = 0
      · rw [if_pos hcur] at hsome
        exact (Option.some.inj hsome) ▸ hle
      · rw [if_neg hcur] at hsome
        cases hstep : sw_choose_step config matrix i j with
        | none => rw [hstep] at hsome; dsimp only at hsome; cases hsome
        | some step =>
          rw [hstep] at hsome
          dsimp only at hsome
          have hfirst : ∀ (i' j' : Nat) (res' : LocalAlignmentResult),
              res'.identity_numer ≤ res'.identity_denom →
              (match matrix.get (i' - 1) (j' - 1), matrix.get (i' - 1) j',
                  matrix.get i' (j' - 1) with
                | some top_left, some top, some left =>
                  let maximum := max (max top_left top) left
                  if 0 < i' ∧ 0 < j' ∧ (top_left = maximum ∨ top_left = 0) then
                    traceback_sw_loop row_seq column_seq config matrix fuel
                      (i' - 1) (j' - 1)
                      (traceback_sw_top_left row_seq column_seq res' (i' - 1) (j' - 1))
                  else if 0 < i' ∧ (top = maximum ∨ top = 0) then
                    traceback_sw_loop row_seq column_seq config matrix fuel
                      (i' - 1) j' (traceback_sw_top row_seq res' (i' - 1))
                  else
                    traceback_sw_loop row_seq column_seq config matrix fuel
                      i' (j' - 1) (traceback_sw_left column_seq res' (j' - 1))
                | _, _, _ => none) = some r →
              r.identity_numer ≤ r.identity_denom := by
            intro i' j' res' hle' hm
            cases hg1 : matrix.get (i' - 1) (j' - 1) with
            | none => rw [hg1] at hm; dsimp only at hm; cases hm
            | some top_left =>
              cases hg2 : matrix.get (i' - 1) j' with
              | none => rw [hg1, hg2] at hm; dsimp only at hm; cases hm
              | some top =>
                cases hg3 : matrix.get i' (j' - 1) with
                | none => rw [hg1, hg2, hg3] at hm; dsimp only at hm; cases hm
                | some left =>
                  rw [hg1, hg2, hg3] at hm
                  dsimp only at hm
                  split at hm
                  · refine ih _ _ _ _ hm ?_
                    simp only [traceback_sw_top_left]
                    split <;> omega
                  · split at hm
                    · exact ih _ _ _ _ hm (by simpa [traceback_sw_top] using hle')
                    · exact ih _ _ _ _ hm (by simpa [traceback_sw_left] using hle')
          cases step with
          | Top =>
            dsimp only at hsome
            by_cases hu : i - 1 = 0 ∨ j = 0
            · rw [if_pos hu] at hsome; cases hsome
            · rw [if_neg hu] at hsome
              exact hfirst (i - 1) j _ (by simpa [traceback_sw_top] using hle) hsome
          | Left =>
            dsimp only at hsome
            by_cases hu : i = 0 ∨ j - 1 = 0
            · rw [if_pos hu] at hsome; cases hsome
            · rw [if_neg hu] at hsome
              exact hfirst i (j - 1) _ (by simpa [traceback_sw_left] using hle) hsome
          | TopLeft =>
            dsimp only at hsome
            by_cases hpos : 0 < i ∧ 0 < j
            · rw [if_pos hpos] at hsome
              dsimp only at hsome
              by_cases hu : i - 1 = 0 ∨ j - 1 = 0
              · rw [if_pos hu] at hsome; cases hsome
              · rw [if_neg hu] at hsome
                refine hfirst (i - 1) (j - 1) _ ?_ hsome
                simp only [traceback_sw_top_left]
                split <;> omega
            · rw [if_neg hpos] at hsome
              cases hsome

/-! ## `mapM` helpers for the `Option` monad -/

theorem mapM_mem_some {α β : Type} (f : α → Option β) :
    ∀ (l : List α) (l' : List β), l.mapM f = some l' →
      ∀ b ∈ l', ∃ a ∈ l, f a = some b := by
  intro l
  induction l with
  | nil =>
    intro l' h b hb
    simp only [List.mapM_nil, pure, Option.some.injEq] at h
    subst h
    cases hb
  | cons a l ih =>
    intro l' h b hb
    rw [List.mapM_cons] at h
    cases hfa : f a with
    | none => rw [hfa] at h; cases h
    | some b₀ =>
      rw [hfa] at h
      simp only [Option.bind_eq_bind, Option.some_bind] at h
      cases hrest : l.mapM f with
      | none => rw [hrest] at h; cases h
      | some bs =>
        rw [hrest] at h
        simp only [Option.bind_eq_bind, Option.some_bind, pure, Option.some.injEq] at h
        subst h
        rcases List.mem_cons.mp hb with hb | hb
        · exact ⟨a, List.mem_cons_self a l, hb ▸ hfa⟩
        · obtain ⟨a', ha', hfa'⟩ := ih bs hrest b hb
          exact ⟨a', List.mem_cons_of_mem a ha', hfa'⟩

theorem mapM_ne_nil {α β : Type} (f : α → Option β) {l : List α} {l' : List β}
    (h : l.mapM f = some l') (hne : l ≠ []) : l' ≠ [] := by
  cases l with
  | nil => exact absurd rfl hne
  | cons a l =>
    rw [List.mapM_cons] at h
    cases hfa : f a with
    | none => rw [hfa] at h; cases h
    | some b₀ =>
      rw [hfa] at h
      simp only [Option.bind_eq_bind, Option.some_bind] at h
      cases hrest : l.mapM f with
      | none => rw [hrest] at h; cases h
      | some bs =>
        rw [hrest] at h
        simp only [Option.bind_eq_bind, Option.some_bind, pure, Option.some.injEq] at h
        subst h
        simp

/-! ## Gap-removal round trip (claim C6) -/

theorem filter_push_letter (xs : List Letter) {l : Letter} (hl : l ≠ GAP) :
    (xs ++ [l]).filter (fun a => a != GAP) = xs.filter (fun a => a != GAP) ++ [l] := by
  rw [List.filter_append]
  congr 1
  have hb : (l != GAP) = true := by simp [hl]
  simp [List.filter, hb]

theorem filter_push_gap (xs : List Letter) :
    (xs ++ [GAP]).filter (fun a => a != GAP) = xs.filter (fun a => a != GAP) := by
  rw [List.filter_append]
  simp [List.filter]

theorem take_reverse_succ (row_seq : List Letter) {i : Nat} (hi : i < row_seq.length) :
    (row_seq.take (i + 1)).reverse =
      normalize_letter (row_seq.get? i) :: (row_seq.take i).reverse := by
  have hg : row_seq[i]? = some row_seq[i] := List.getElem?_eq_getElem hi
  rw [List.take_succ, hg, List.reverse_append, List.get?_eq_getElem?, hg]
  rfl

/-- Along the global traceback on the canonical matrix, for gap-free inputs:
dropping gaps from the accumulated aligned rows appends exactly the first `i`
row symbols in reverse (and likewise for columns). -/
theorem traceback_nw_loop_filter (row_seq column_seq : List Letter)
    (config : GlobalAlignmentConfig) (hR : GAP ∉ row_seq) (hC : GAP ∉ column_seq) :
    ∀ (fuel i j : Nat) (res r : GlobalAlignmentResult),
      traceback_nw_loop row_seq column_seq config (nw_canonical row_seq column_seq config)
        fuel i j res = some r →
      i ≤ row_seq.length → j ≤ column_seq.length →
      r.aligned_row_seq.filter (fun a => a != GAP)
          = res.aligned_row_seq.filter (fun a => a != GAP) ++ (row_seq.take i).reverse ∧
        r.aligned_column_seq.filter (fun a => a != GAP)
          = res.aligned_column_seq.filter (fun a => a != GAP) ++ (column_seq.take j).reverse := by
  intro fuel
  induction fuel with
  | zero =>
    intro i j res r hsome hi hj
    by_cases hij : i = 0 ∧ j = 0
    · simp only [traceback_nw_loop, if_pos hij, Option.some.injEq] at hsome
      obtain ⟨hi0, hj0⟩ := hij
      subst hi0; subst hj0; subst hsome
      simp
    · simp [traceback_nw_loop, hij] at hsome
  | succ fuel ih =>
    intro i j res r hsome hi hj
    by_cases hij : i = 0 ∧ j = 0
    · simp only [traceback_nw_loop, if_pos hij, Option.some.injEq] at hsome
      obtain ⟨hi0, hj0⟩ := hij
      subst hi0; subst hj0; subst hsome
      simp
    · simp only [traceback_nw_loop, if_neg hij] at hsome
      by_cases hT : 0 < i ∧ nw_score row_seq column_seq config i j =
          nw_score row_seq column_seq config (i - 1) j + config.gap_penalty
      · have hc := nw_choose_step_canonical row_seq column_seq config hi hj
        rw [if_pos hT] at hc
        rw [hc] at hsome
        dsimp only at hsome
        obtain ⟨i', rfl⟩ : ∃ i', i = i' + 1 := ⟨i - 1, by omega⟩
        simp only [Nat.add_sub_cancel] at hsome
        obtain ⟨ihr, ihc⟩ := ih i' j _ r hsome (by omega) hj
        simp only [traceback_nw_top] at ihr ihc
        constructor
        · rw [ihr, filter_push_letter _ (normalize_letter_ne_gap (by omega) hR),
            take_reverse_succ row_seq (by omega)]
          simp
        · rw [ihc, filter_push_gap]
      · by_cases hL : 0 < j ∧ nw_score row_seq column_seq config i j =
            nw_score row_seq column_seq config i (j - 1) + config.gap_penalty
        · have hc := nw_choose_step_canonical row_seq column_seq config hi hj
          rw [if_neg hT, if_pos hL] at hc
          rw [hc] at hsome
          dsimp only at hsome
          obtain ⟨j', rfl⟩ : ∃ j', j = j' + 1 := ⟨j - 1, by omega⟩
          simp only [Nat.add_sub_cancel] at hsome
          obtain ⟨ihr, ihc⟩ := ih i j' _ r hsome hi (by omega)
          simp only [traceback_nw_left] at ihr ihc
          constructor
          · rw [ihr, filter_push_gap]
          · rw [ihc, filter_push_letter _ (normalize_letter_ne_gap (by omega) hC),
              take_reverse_succ column_seq (by omega)]
            simp
        · have h0i : 0 < i := by
            by_contra h0i
            have hi0 : i = 0 := by omega
            have hj0 : 0 < j := by omega
            subst hi0
            exact hL ⟨hj0, nw_border_left_test row_seq column_seq config hj0⟩
          have h0j : 0 < j := by
            by_contra h0j
            have hj0 : j = 0 := by omega
            subst hj0
            exact hT ⟨h0i, nw_border_top_test row_seq column_seq config h0i⟩
          have hc := nw_choose_step_canonical row_seq column_seq config hi hj
          rw [if_neg hT, if_neg hL] at hc
          rw [hc] at hsome
          dsimp only at hsome
          rw [if_pos ⟨h0i, h0j⟩] at hsome
          obtain ⟨i', rfl⟩ : ∃ i', i = i' + 1 := ⟨i - 1, by omega⟩
          obtain ⟨j', rfl⟩ : ∃ j', j = j' + 1 := ⟨j - 1, by omega⟩
          simp only [Nat.add_sub_cancel] at hsome
          obtain ⟨ihr, ihc⟩ := ih i' j' _ r hsome (by omega) (by omega)
          simp only [traceback_nw_top_left] at ihr ihc
          constructor
          · rw [ihr, filter_push_letter _ (normalize_letter_ne_gap (by omega) hR),
              take_reverse_succ row_seq (by omega)]
            simp
          · rw [ihc, filter_push_letter _ (normalize_letter_ne_gap (by omega) hC),
              take_reverse_succ column_seq (by omega)]
            simp

/-! ## Score recomputation along the global traceback (claim C5, global part) -/

/-- Along the global traceback on the canonical matrix, for gap-free inputs:
the sum of the spec's per-position weights over the freshly pushed pairs
equals the current cell's score. -/
theorem traceback_nw_loop_score (row_seq column_seq : List Letter)
    (config : GlobalAlignmentConfig) (hR : GAP ∉ row_seq) (hC : GAP ∉ column_seq) :
    ∀ (fuel i j : Nat) (res r : GlobalAlignmentResult),
      traceback_nw_loop row_seq column_seq config (nw_canonical row_seq column_seq config)
        fuel i j res = some r →
      i ≤ row_seq.length → j ≤ column_seq.length →
      ∃ ext_r ext_c,
        r.aligned_row_seq = res.aligned_row_seq ++ ext_r ∧
        r.aligned_column_seq = res.aligned_column_seq ++ ext_c ∧
        ext_r.length = ext_c.length ∧
        recompute_score config.match_penalty config.mismatch_penalty config.gap_penalty
          ext_r ext_c = nw_score row_seq column_seq config i j := by
  intro fuel
  induction fuel with
  | zero =>
    intro i j res r hsome hi hj
    by_cases hij : i = 0 ∧ j = 0
    · simp only [traceback_nw_loop, if_pos hij, Option.some.injEq] at hsome
      obtain ⟨hi0, hj0⟩ := hij
      subst hi0; subst hj0; subst hsome
      refine ⟨[], [], by simp, by simp, rfl, ?_⟩
      rw [recompute_score_nil, nw_score_zero_left]
      simp
    · simp [traceback_nw_loop, hij] at hsome
  | succ fuel ih =>
    intro i j res r hsome hi hj
    by_cases hij : i = 0 ∧ j = 0
    · simp only [traceback_nw_loop, if_pos hij, Option.some.injEq] at hsome
      obtain ⟨hi0, hj0⟩ := hij
      subst hi0; subst hj0; subst hsome
      refine ⟨[], [], by simp, by simp, rfl, ?_⟩
      rw [recompute_score_nil, nw_score_zero_left]
      simp
    · simp only [traceback_nw_loop, if_neg hij] at hsome
      by_cases hT : 0 < i ∧ nw_score row_seq column_seq config i j =
          nw_score row_seq column_seq config (i - 1) j + config.gap_penalty
      · have hc := nw_choose_step_canonical row_seq column_seq config hi hj
        rw [if_pos hT] at hc
        rw [hc] at hsome
        dsimp only at hsome
        obtain ⟨i', rfl⟩ : ∃ i', i = i' + 1 := ⟨i - 1, by omega⟩
        simp only [Nat.add_sub_cancel] at hsome hT
        obtain ⟨er, ec, hrr, hrc, hlen, hsum⟩ := ih i' j _ r hsome (by omega) hj
        simp only [traceback_nw_top] at hrr hrc
        refine ⟨normalize_letter (row_seq.get? i') :: er, GAP :: ec, ?_, ?_, by simp [hlen], ?_⟩
        · rw [hrr, List.append_assoc]
          rfl
        · rw [hrc, List.append_assoc]
          rfl
        · rw [recompute_score_cons, pair_weight_gap_right, hsum, hT.2]
          ring
      · by_cases hL : 0 < j ∧ nw_score row_seq column_seq config i j =
            nw_score row_seq column_seq config i (j - 1) + config.gap_penalty
        · have hc := nw_choose_step_canonical row_seq column_seq config hi hj
          rw [if_neg hT, if_pos hL] at hc
          rw [hc] at hsome
          dsimp only at hsome
          obtain ⟨j', rfl⟩ : ∃ j', j = j' + 1 := ⟨j - 1, by omega⟩
          simp only [Nat.add_sub_cancel] at hsome hL
          obtain ⟨er, ec, hrr, hrc, hlen, hsum⟩ := ih i j' _ r hsome hi (by omega)
          simp only [traceback_nw_left] at hrr hrc
          refine ⟨GAP :: er, normalize_letter (column_seq.get? j') :: ec, ?_, ?_,
            by simp [hlen], ?_⟩
          · rw [hrr, List.append_assoc]
            rfl
          · rw [hrc, List.append_assoc]
            rfl
          · rw [recompute_score_cons, pair_weight_gap_left, hsum, hL.2]
            ring
        · have h0i : 0 < i := by
            by_contra h0i
            have hi0 : i = 0 := by omega
            have hj0 : 0 < j := by omega
            subst hi0
            exact hL ⟨hj0, nw_border_left_test row_seq column_seq config hj0⟩
          have h0j : 0 < j := by
            by_contra h0j
            have hj0 : j = 0 := by omega
            subst hj0
            exact hT ⟨h0i, nw_border_top_test row_seq column_seq config h0i⟩
          have hc := nw_choose_step_canonical row_seq column_seq config hi hj
          rw [if_neg hT, if_neg hL] at hc
          rw [hc] at hsome
          dsimp only at hsome
          rw [if_pos ⟨h0i, h0j⟩] at hsome
          obtain ⟨i', rfl⟩ : ∃ i', i = i' + 1 := ⟨i - 1, by omega⟩
          obtain ⟨j', rfl⟩ : ∃ j', j = j' + 1 := ⟨j - 1, by omega⟩
          simp only [Nat.add_sub_cancel] at hsome hT hL
          obtain ⟨er, ec, hrr, hrc, hlen, hsum⟩ := ih i' j' _ r hsome (by omega) (by omega)
          simp only [traceback_nw_top_left] at hrr hrc
          have ha : normalize_letter (row_seq.get? i') ≠ GAP :=
            normalize_letter_ne_gap (by omega) hR
          have hb : normalize_letter (column_seq.get? j') ≠ GAP :=
            normalize_letter_ne_gap (by omega) hC
          have hTne : nw_score row_seq column_seq config (i' + 1) (j' + 1) ≠
              nw_score row_seq column_seq config i' (j' + 1) + config.gap_penalty :=
            fun hb2 => hT ⟨by omega, hb2⟩
          have hLne : nw_score row_seq column_seq config (i' + 1) (j' + 1) ≠
              nw_score row_seq column_seq config (i' + 1) j' + config.gap_penalty :=
            fun hb2 => hL ⟨by omega, hb2⟩
          have hcur := nw_score_succ_succ row_seq column_seq config i' j'
          have hdiag : nw_score row_seq column_seq config (i' + 1) (j' + 1) =
              nw_score row_seq column_seq config i' j' +
                (if normalize_letter (row_seq.get? i') = normalize_letter (column_seq.get? j')
                 then config.match_penalty else config.mismatch_penalty) := by
            rcases max_choice
              (max (nw_score row_seq column_seq config i' (j' + 1))
                   (nw_score row_seq column_seq config (i' + 1) j') + config.gap_penalty)
              (nw_score row_seq column_seq config i' j' +
                (if normalize_letter (row_seq.get? i') = normalize_letter (column_seq.get? j')
                 then config.match_penalty else config.mismatch_penalty)) with hm | hm
            · exfalso
              rcases max_choice (nw_score row_seq column_seq config i' (j' + 1))
                (nw_score row_seq column_seq config (i' + 1) j') with hm2 | hm2
              · exact hTne (by rw [hcur, hm, hm2])
              · exact hLne (by rw [hcur, hm, hm2])
            · rw [hcur, hm]
          refine ⟨normalize_letter (row_seq.get? i') :: er,
            normalize_letter (column_seq.get? j') :: ec, ?_, ?_, by simp [hlen], ?_⟩
          · rw [hrr, List.append_assoc]
            rfl
          · rw [hrc, List.append_assoc]
            rfl
          · rw [recompute_score_cons, pair_weight_no_gap _ _ _ ha hb, hsum, hdiag]
            ring

/-- The global traceback loop never modifies the `score` field. -/
theorem traceback_nw_loop_score_field (row_seq column_seq : List Letter)
    (config : GlobalAlignmentConfig) (matrix : AlignmentMatrix) :
    ∀ (fuel i j : Nat) (res r : GlobalAlignmentResult),
      traceback_nw_loop row_seq column_seq config matrix fuel i j res = some r →
      r.score = res.score := by
  intro fuel
  induction fuel with
  | zero =>
    intro i j res r hsome
    by_cases hij : i = 0 ∧ j = 0
    · simp only [traceback_nw_loop, if_pos hij, Option.some.injEq] at hsome
      exact hsome ▸ rfl
    · simp [traceback_nw_loop, hij] at hsome
  | succ fuel ih =>
    intro i j res r hsome
    by_cases hij : i = 0 ∧ j = 0
    · simp only [traceback_nw_loop, if_pos hij, Option.some.injEq] at hsome
      exact hsome ▸ rfl
    · simp only [traceback_nw_loop, if_neg hij] at hsome
      cases hstep : nw_choose_step config matrix i j with
      | none => rw [hstep] at hsome; cases hsome
      | some step =>
        rw [hstep] at hsome
        cases step with
        | Top => exact (ih _ _ _ _ hsome).trans rfl
        | Left => exact (ih _ _ _ _ hsome).trans rfl
        | TopLeft =>
          by_cases hpos : 0 < i ∧ 0 < j
          · rw [if_pos hpos] at hsome
            exact (ih _ _ _ _ hsome).trans rfl
          · rw [if_neg hpos] at hsome
            cases hsome

/-- Inversion of a successful `needleman_wunsch` run: the matrix is the
canonical one and the result is the finalisation of a successful loop run
from the bottom-right corner. -/
theorem needleman_wunsch_inv {row_seq column_seq : List Letter}
    {config : GlobalAlignmentConfig} {r : GlobalAlignmentResult}
    (h : needleman_wunsch row_seq column_seq config = some r) :
    ∃ r0, traceback_nw_loop row_seq column_seq config
        (nw_canonical row_seq column_seq config)
        (row_seq.length + column_seq.length) row_seq.length column_seq.length
        { aligned_row_seq := [], aligned_column_seq := []
          score := nw_score row_seq column_seq config row_seq.length column_seq.length
          identity_numer := 0, identity_denom := 0 } = some r0 ∧
      r = { aligned_row_seq := r0.aligned_row_seq.reverse
            aligned_column_seq := r0.aligned_column_seq.reverse
            score := r0.score
            identity_numer := r0.identity_numer
            identity_denom := max r0.identity_denom 1 } := by
  rw [needleman_wunsch] at h
  cases hcomp : compute_nw_matrix row_seq column_seq config with
  | none => rw [hcomp] at h; cases h
  | some m =>
    rw [hcomp] at h
    simp only [Option.bind_eq_bind, Option.some_bind] at h
    have hcan := compute_nw_matrix_some_eq hcomp
    subst hcan
    rw [traceback_nw_best_alignment] at h
    have hh : (nw_canonical row_seq column_seq config).height - 1 = row_seq.length := by
      rw [nw_canonical_height]
      omega
    have hw : (nw_canonical row_seq column_seq config).width - 1 = column_seq.length := rfl
    rw [hh, hw, nw_canonical_get row_seq column_seq config (by omega) (by omega)] at h
    simp only [Option.bind_eq_bind, Option.some_bind] at h
    cases hloop : traceback_nw_loop row_seq column_seq config
        (nw_canonical row_seq column_seq config)
        (row_seq.length + column_seq.length) row_seq.length column_seq.length
        { aligned_row_seq := [], aligned_column_seq := []
          score := nw_score row_seq column_seq config row_seq.length column_seq.length
          identity_numer := 0, identity_denom := 0 } with
    | none => rw [hloop] at h; cases h
    | some r0 =>
      rw [hloop] at h
      simp only [Option.some_bind, pure, Option.some.injEq] at h
      exact ⟨r0, rfl, h.symm⟩

/-! ## Claim theorems -/

/-- C3: for every pair of input sequences and every scoring config, the global
traceback's per-cell choice applies the fixed deterministic tie-break
priority on the computed matrix: it takes Up exactly when the current score
equals the top predecessor's score plus the gap weight; else Left exactly
when the current score equals the left predecessor's score plus the gap
weight; else Diagonal. Since the traceback is a function of these choices,
this priority alone determines the single returned alignment. -/
theorem c3_global_priority_rule (row_seq column_seq : List Letter)
    (config : GlobalAlignmentConfig) (matrix : AlignmentMatrix) (i j : Nat)
    (hm : compute_nw_matrix row_seq column_seq config = some matrix)
    (hi : i ≤ row_seq.length) (hj : j ≤ column_seq.length) :
    (nw_choose_step config matrix i j = some TracebackStep.Top ↔
      0 < i ∧ nw_score row_seq column_seq config i j =
        nw_score row_seq column_seq config (i - 1) j + config.gap_penalty) ∧
    (nw_choose_step config matrix i j = some TracebackStep.Left ↔
      ¬(0 < i ∧ nw_score row_seq column_seq config i j =
          nw_score row_seq column_seq config (i - 1) j + config.gap_penalty) ∧
      (0 < j ∧ nw_score row_seq column_seq config i j =
        nw_score row_seq column_seq config i (j - 1) + config.gap_penalty)) ∧
    (nw_choose_step config matrix i j = some TracebackStep.TopLeft ↔
      ¬(0 < i ∧ nw_score row_seq column_seq config i j =
          nw_score row_seq column_seq config (i - 1) j + config.gap_penalty) ∧
      ¬(0 < j ∧ nw_score row_seq column_seq config i j =
          nw_score row_seq column_seq config i (j - 1) + config.gap_penalty)) := by
  have hcan := compute_nw_matrix_some_eq hm
  subst hcan
  rw [nw_choose_step_canonical row_seq column_seq config hi hj]
  by_cases hT : 0 < i ∧ nw_score row_seq column_seq config i j =
      nw_score row_seq column_seq config (i - 1) j + config.gap_penalty
  · rw [if_pos hT]
    exact ⟨iff_of_true rfl hT,
      iff_of_false (by simp) (fun hh => hh.1 hT),
      iff_of_false (by simp) (fun hh => hh.1 hT)⟩
  · by_cases hL : 0 < j ∧ nw_score row_seq column_seq config i j =
        nw_score row_seq column_seq config i (j - 1) + config.gap_penalty
    · rw [if_neg hT, if_pos hL]
      exact ⟨iff_of_false (by simp) hT,
        iff_of_true rfl ⟨hT, hL⟩,
        iff_of_false (by simp) (fun hh => hh.2 hL)⟩
    · rw [if_neg hT, if_neg hL]
      exact ⟨iff_of_false (by simp) hT,
        iff_of_false (by simp) (fun hh => hL hh.2),
        iff_of_true rfl ⟨hT, hL⟩⟩

/-- C4: for every pair of input sequences and every scoring config, during
the global traceback the border initialisation guarantees that at row
index 0 the (only applicable) Left test succeeds and at column index 0 the
Up test succeeds; hence the Diagonal branch is never taken while either
index is 0, no index is ever decremented below 0 (the loop returns `some`,
i.e. never hits the underflow branch), and the traceback — and the whole
alignment — terminates at cell (0,0). -/
theorem c4_global_boundary_safety (row_seq column_seq : List Letter)
    (config : GlobalAlignmentConfig) (matrix : AlignmentMatrix) (i j : Nat)
    (res : GlobalAlignmentResult)
    (hm : compute_nw_matrix row_seq column_seq config = some matrix)
    (hi : i ≤ row_seq.length) (hj : j ≤ column_seq.length) :
    (i = 0 → 0 < j → nw_choose_step config matrix i j = some TracebackStep.Left) ∧
    (j = 0 → 0 < i → nw_choose_step config matrix i j = some TracebackStep.Top) ∧
    (traceback_nw_loop row_seq column_seq config matrix (i + j) i j res).isSome ∧
    (traceback_nw_best_alignment row_seq column_seq config matrix).isSome := by
  have hcan := compute_nw_matrix_some_eq hm
  subst hcan
  refine ⟨?_, ?_, ?_, ?_⟩
  · intro hi0 hj0
    subst hi0
    exact nw_choose_step_row0 row_seq column_seq config hj0 hj
  · intro hj0 hi0
    subst hj0
    exact nw_choose_step_col0 row_seq column_seq config hi0 hi
  · exact traceback_nw_loop_isSome row_seq column_seq config (i + j) i j res le_rfl hi hj
  · exact traceback_nw_best_alignment_isSome row_seq column_seq config

/-- C6 (amended): for input sequences that do not contain the gap sentinel
`'-'`, deleting all gap symbols from the global result's aligned row yields
exactly the original row sequence, in order, and likewise for the column. -/
theorem c6_gap_roundtrip (row_seq column_seq : List Letter)
    (config : GlobalAlignmentConfig) (r : GlobalAlignmentResult)
    (hR : GAP ∉ row_seq) (hC : GAP ∉ column_seq)
    (h : needleman_wunsch row_seq column_seq config = some r) :
    r.aligned_row_seq.filter (fun a => a != GAP) = row_seq ∧
    r.aligned_column_seq.filter (fun a => a != GAP) = column_seq := by
  obtain ⟨r0, hloop, hfin⟩ := needleman_wunsch_inv h
  obtain ⟨ihr, ihc⟩ := traceback_nw_loop_filter row_seq column_seq config hR hC
    _ _ _ _ _ hloop le_rfl le_rfl
  simp only [List.filter_nil, List.nil_append, List.take_length] at ihr ihc
  subst hfin
  constructor
  · show r0.aligned_row_seq.reverse.filter (fun a => a != GAP) = row_seq
    rw [List.filter_reverse, ihr, List.reverse_reverse]
  · show r0.aligned_column_seq.reverse.filter (fun a => a != GAP) = column_seq
    rw [List.filter_reverse, ihc, List.reverse_reverse]

/-- Supporting theorem for claim C5 (global part): for gap-free inputs,
recomputing the score of the global result by the spec's position-by-position
rule yields exactly the reported score. (The local analogue is false — see
the C5 claim theorem — because of the local traceback's second step.) -/
theorem nw_global_score_recompute (row_seq column_seq : List Letter)
    (config : GlobalAlignmentConfig) (r : GlobalAlignmentResult)
    (hR : GAP ∉ row_seq) (hC : GAP ∉ column_seq)
    (h : needleman_wunsch row_seq column_seq config = some r) :
    recompute_score config.match_penalty config.mismatch_penalty config.gap_penalty
      r.aligned_row_seq r.aligned_column_seq = r.score := by
  obtain ⟨r0, hloop, hfin⟩ := needleman_wunsch_inv h
  obtain ⟨er, ec, hrr, hrc, hlen, hsum⟩ := traceback_nw_loop_score row_seq column_seq config
    hR hC _ _ _ _ _ hloop le_rfl le_rfl
  simp only [List.nil_append] at hrr hrc
  have hscore := traceback_nw_loop_score_field row_seq column_seq config _ _ _ _ _ _ hloop
  subst hfin
  show recompute_score config.match_penalty config.mismatch_penalty config.gap_penalty
      r0.aligned_row_seq.reverse r0.aligned_column_seq.reverse = r0.score
  rw [hrr, hrc, recompute_score_reverse _ _ _ er ec hlen, hsum]
  exact hscore.symm

/-- `argmax_many` of a matrix with a non-empty buffer is non-empty: the
maximum value occurs somewhere, and its index survives the filter. -/
theorem argmax_many_ne_nil {m : AlignmentMatrix} (h : m.buf ≠ []) :
    m.argmax_many ≠ [] := by
  unfold AlignmentMatrix.argmax_many AlignmentMatrix.maxScore
  cases hmax : m.buf.max? with
  | none => exact absurd (List.max?_eq_none_iff.mp hmax) h
  | some mx =>
    have hmem : mx ∈ m.buf := List.max?_mem (fun a b => max_choice a b) hmax
    obtain ⟨k, hk, hg⟩ := List.mem_iff_getElem.mp hmem
    have henum : (k, mx) ∈ m.buf.enum := by
      have h1 : m.buf.enum.get? k = some (k, mx) := by
        rw [List.get?_eq_getElem?, List.getElem?_enum, List.getElem?_eq_getElem hk, hg]
        rfl
      exact List.get?_mem h1
    have hfil : (k, mx) ∈ m.buf.enum.filter (fun p => p.2 == mx) :=
      List.mem_filter.mpr ⟨henum, by simp⟩
    intro hnil
    rw [List.map_eq_nil_iff] at hnil
    rw [hnil] at hfil
    cases hfil

/-- C8: for every pair of input sequences and every scoring config, every
returned result — the global result, and each local result whenever the
local aligner returns normally — satisfies
`identityNumerator ≤ identityDenominator` and `identityDenominator ≥ 1`
(the denominator being floored to 1 at the end of each traceback). -/
theorem c8_identity_bounds (row_seq column_seq : List Letter)
    (configG : GlobalAlignmentConfig) (configL : LocalAlignmentConfig)
    (r : GlobalAlignmentResult) (rs : List LocalAlignmentResult) :
    (needleman_wunsch row_seq column_seq configG = some r →
      r.identity_numer ≤ r.identity_denom ∧ 1 ≤ r.identity_denom) ∧
    (best_smith_waterman row_seq column_seq configL = some rs →
      ∀ lr ∈ rs, lr.identity_numer ≤ lr.identity_denom ∧ 1 ≤ lr.identity_denom) := by
  constructor
  · intro h
    obtain ⟨r0, hloop, hfin⟩ := needleman_wunsch_inv h
    have hle := traceback_nw_loop_identity row_seq column_seq configG _ _ _ _ _ _
      hloop (le_refl 0)
    subst hfin
    exact ⟨le_trans hle (le_max_left _ _), le_max_right _ _⟩
  · intro h lr hmem
    rw [best_smith_waterman] at h
    cases hcomp : compute_sw_matrix row_seq column_seq configL with
    | none => rw [hcomp] at h; cases h
    | some m =>
      rw [hcomp] at h
      simp only [Option.bind_eq_bind, Option.some_bind] at h
      rw [traceback_best_sw_alignment] at h
      obtain ⟨p, _, hfp⟩ := mapM_mem_some _ _ _ h lr hmem
      dsimp only at hfp
      cases hg : m.get p.1 p.2 with
      | none => rw [hg] at hfp; cases hfp
      | some s =>
        rw [hg] at hfp
        simp only [Option.bind_eq_bind, Option.some_bind] at hfp
        cases hloop : traceback_sw_loop row_seq column_seq configL m (p.1 + p.2) p.1 p.2
            { aligned_row_seq := { start := p.1, «end» := p.1, data := [] }
              aligned_column_seq := { start := p.2, «end» := p.2, data := [] }
              score := s, identity_numer := 0, identity_denom := 0 } with
        | none => rw [hloop] at hfp; cases hfp
        | some r0 =>
          rw [hloop] at hfp
          simp only [Option.some_bind, pure, Option.some.injEq] at hfp
          have hle := traceback_sw_loop_identity row_seq column_seq configL m _ _ _ _ _
            hloop (le_refl 0)
          subst hfp
          exact ⟨le_trans hle (le_max_left _ _), le_max_right _ _⟩

/-- C9 (amended): on each diagonal traceback step, global and local alike,
the identity denominator is incremented by one, and the identity numerator
is incremented if and only if the two consumed symbols are exactly equal
*and* are not the gap sentinel (the implementation additionally tests
`row_letter != GAP`); otherwise the numerator is unchanged. -/
theorem c9_diagonal_identity_update (row_seq column_seq : List Letter)
    (resG : GlobalAlignmentResult) (resL : LocalAlignmentResult) (ci cj : Nat) :
    ((traceback_nw_top_left row_seq column_seq resG ci cj).identity_denom
        = resG.identity_denom + 1) ∧
    ((traceback_nw_top_left row_seq column_seq resG ci cj).identity_numer
        = resG.identity_numer + 1 ↔
      normalize_letter (row_seq.get? ci) = normalize_letter (column_seq.get? cj) ∧
        normalize_letter (row_seq.get? ci) ≠ GAP) ∧
    (¬(normalize_letter (row_seq.get? ci) = normalize_letter (column_seq.get? cj) ∧
        normalize_letter (row_seq.get? ci) ≠ GAP) →
      (traceback_nw_top_left row_seq column_seq resG ci cj).identity_numer
        = resG.identity_numer) ∧
    ((traceback_sw_top_left row_seq column_seq resL ci cj).identity_denom
        = resL.identity_denom + 1) ∧
    ((traceback_sw_top_left row_seq column_seq resL ci cj).identity_numer
        = resL.identity_numer + 1 ↔
      normalize_letter (row_seq.get? ci) = normalize_letter (column_seq.get? cj) ∧
        normalize_letter (row_seq.get? ci) ≠ GAP) ∧
    (¬(normalize_letter (row_seq.get? ci) = normalize_letter (column_seq.get? cj) ∧
        normalize_letter (row_seq.get? ci) ≠ GAP) →
      (traceback_sw_top_left row_seq column_seq resL ci cj).identity_numer
        = resL.identity_numer) := by
  by_cases hcond : normalize_letter (row_seq.get? ci) = normalize_letter (column_seq.get? cj) ∧
      normalize_letter (row_seq.get? ci) ≠ GAP
  · refine ⟨rfl, ?_, ?_, rfl, ?_, ?_⟩
    · simp [traceback_nw_top_left, hcond]
    · intro hc; exact absurd hcond hc
    · simp [traceback_sw_top_left, hcond]
    · intro hc; exact absurd hcond hc
  · refine ⟨rfl, ?_, ?_, rfl, ?_, ?_⟩
    · simp only [traceback_nw_top_left, if_neg hcond]
      constructor
      · intro hc; omega
      · intro hc; exact absurd hc hcond
    · intro _
      simp only [traceback_nw_top_left]
      rw [if_neg hcond]
    · simp only [traceback_sw_top_left, if_neg hcond]
      constructor
      · intro hc; omega
      · intro hc; exact absurd hc hcond
    · intro _
      simp only [traceback_sw_top_left]
      rw [if_neg hcond]

/-- C10 (amended): whenever `best_smith_waterman` terminates normally, the
returned collection is non-empty — the `(len+1) × (len+1)` matrix has at
least one cell, so `argmax_many` yields at least one coordinate and hence at
least one result. (As stated, the claim is false: on some inputs the
function panics and returns nothing; see the counterexample.) -/
theorem c10_nonempty (row_seq column_seq : List Letter) (config : LocalAlignmentConfig)
    (rs : List LocalAlignmentResult)
    (h : best_smith_waterman row_seq column_seq config = some rs) : rs ≠ [] := by
  rw [best_smith_waterman] at h
  cases hcomp : compute_sw_matrix row_seq column_seq config with
  | none => rw [hcomp] at h; cases h
  | some m =>
    rw [hcomp] at h
    simp only [Option.bind_eq_bind, Option.some_bind] at h
    have hcan := compute_sw_matrix_some_eq hcomp
    subst hcan
    rw [traceback_best_sw_alignment] at h
    refine mapM_ne_nil _ h (argmax_many_ne_nil ?_)
    have hlen : (sw_canonical row_seq column_seq config).buf.length =
        (row_seq.length + 1) * (column_seq.length + 1) := by
      simp [sw_canonical]
    intro hnil
    rw [hnil] at hlen
    simp only [List.length_nil] at hlen
    have hpos : 0 < (row_seq.length + 1) * (column_seq.length + 1) :=
      Nat.mul_pos (by omega) (by omega)
    omega

/-! ## The repository's own unit tests, replayed against the embedding -/

/-- `global.rs`, test `simple_what_why_with_gap`. -/
theorem test_simple_what_why_with_gap :
    needleman_wunsch ['W', 'H', 'A', 'T'] ['W', 'H', 'Y']
        { match_penalty := 1, mismatch_penalty := -1, gap_penalty := -2 } =
      some { aligned_row_seq := ['W', 'H', 'A', 'T']
             aligned_column_seq := ['W', 'H', 'Y', '-']
             score := -1, identity_numer := 2, identity_denom := 3 } := by
  decide

/-- `global.rs`, test `multiple_inner_gaps`. -/
theorem test_multiple_inner_gaps :
    needleman_wunsch ['G', 'C', 'A', 'T', 'G', 'C', 'G'] ['G', 'A', 'T', 'T', 'A', 'C', 'A']
        { match_penalty := 1, mismatch_penalty := -1, gap_penalty := -1 } =
      some { aligned_row_seq := ['G', 'C', 'A', 'T', 'G', '-', 'C', 'G']
             aligned_column_seq := ['G', '-', 'A', 'T', 'T', 'A', 'C', 'A']
             score := 0, identity_numer := 4, identity_denom := 6 } := by
  decide

set_option maxRecDepth 16000 in
/-- `local.rs`, test `easy_case`. -/
theorem test_sw_easy_case :
    best_smith_waterman ['G', 'G', 'T', 'T', 'G', 'A', 'C', 'T', 'A']
        ['T', 'G', 'T', 'T', 'A', 'C', 'G', 'G']
        { match_penalty := 3, mismatch_penalty := -3, gap_penalty := -2 } =
      some [{ aligned_row_seq :=
                { start := 1, «end» := 7, data := ['G', 'T', 'T', 'G', 'A', 'C'] }
              aligned_column_seq :=
                { start := 1, «end» := 6, data := ['G', 'T', 'T', '-', 'A', 'C'] }
              score := 13, identity_numer := 5, identity_denom := 5 }] := by
  decide

/-- The local traceback's first-step choice is literally the global
aligner's priority rule: the two choosers are the same function modulo the
(identical) config record types. -/
theorem sw_choose_step_eq_nw (config : LocalAlignmentConfig)
    (matrix : AlignmentMatrix) (i j : Nat) :
    sw_choose_step config matrix i j =
      nw_choose_step
        { match_penalty := config.match_penalty
          mismatch_penalty := config.mismatch_penalty
          gap_penalty := config.gap_penalty } matrix i j := rfl

/-- C7 (amended): whenever the staircase fill completes normally — that is,
when the row sequence is non-empty or the column sequence is empty — the
matrix produced by the implementation's interleaved row/column staircase
fill equals, cell for cell, the matrix produced by a straightforward
row-major fill of the same border initialisation and three-way-max
recurrence, for both the global and the local aligner. -/
theorem c7_fill_order_equivalence (row_seq column_seq : List Letter)
    (configG : GlobalAlignmentConfig) (configL : LocalAlignmentConfig)
    (h : 0 < row_seq.length ∨ column_seq.length = 0) :
    compute_nw_matrix row_seq column_seq configG =
      compute_nw_matrix_row_major row_seq column_seq configG ∧
    compute_sw_matrix row_seq column_seq configL =
      compute_sw_matrix_row_major row_seq column_seq configL := by
  rw [compute_nw_matrix_eq_canonical row_seq column_seq configG h,
    compute_nw_matrix_row_major_eq row_seq column_seq configG,
    compute_sw_matrix_eq_canonical row_seq column_seq configL h,
    compute_sw_matrix_row_major_eq row_seq column_seq configL]
  exact ⟨rfl, rfl⟩

/-- C7 counterexample: for the empty row sequence against `['A']`, the
implementation's staircase fill panics (writes to row 1 of a height-1
matrix, modelled as `none`) while the row-major fill of the same border
initialisation completes; the two fills do not produce the same matrix,
refuting the claim as stated for every pair of input sequences. -/
theorem c7_cex :
    compute_nw_matrix [] ['A'] GlobalAlignmentConfig.default = none ∧
    compute_nw_matrix [] ['A'] GlobalAlignmentConfig.default ≠
      compute_nw_matrix_row_major [] ['A'] GlobalAlignmentConfig.default := by
  decide

/-- C7 witness: the fill-order equivalence at a concrete input. -/
theorem c7_witness :
    compute_nw_matrix ['A'] ['B'] GlobalAlignmentConfig.default =
      compute_nw_matrix_row_major ['A'] ['B'] GlobalAlignmentConfig.default ∧
    compute_sw_matrix ['A'] ['B'] LocalAlignmentConfig.default =
      compute_sw_matrix_row_major ['A'] ['B'] LocalAlignmentConfig.default :=
  c7_fill_order_equivalence ['A'] ['B'] GlobalAlignmentConfig.default
    LocalAlignmentConfig.default (by decide)

/-- C1 (code bug, evaluation at a failing input): the local traceback does
not take exactly one priority-rule move per step and does not stop as soon
as the current score is 0. Each loop iteration takes a second, unchecked
move chosen by a neighbour-maximum rule; tracing `['A','B','C']` against
`['A','B','C']` reaches cell (0,0) (score 0) after a first move and then
reads `matrix[[current_i - 1, current_j - 1]]`, underflowing — a panic,
modelled as `none`. -/
theorem c1_local_traceback_divergence_eval :
    best_smith_waterman ['A', 'B', 'C'] ['A', 'B', 'C'] LocalAlignmentConfig.default
      = none := by
  decide

/-- C2 (code bug, evaluation at a failing input): `best_smith_waterman` is
not total. On `['A']` vs `['A']` with the default weights the traceback's
unconditional second step reads `matrix[[current_i - 1, current_j - 1]]`
from cell (0,0), an index underflow — a panic, modelled as `none`. -/
theorem c2_local_totality_eval :
    best_smith_waterman ['A'] ['A'] LocalAlignmentConfig.default = none := by
  decide

/-- C5 (code bug, evaluation at a failing input): on `['A','A']` vs
`['A','B','A']` with weights match=2, mismatch=-1, gap=-1, the local aligner
returns normally one result with aligned pair `"AA"` / `"BA"` and reported
score 3, but recomputing the score position by position per the spec's rule
gives `-1 + 2 = 1 ≠ 3`. -/
theorem c5_score_recompute_eval :
    best_smith_waterman ['A', 'A'] ['A', 'B', 'A']
        { match_penalty := 2, mismatch_penalty := -1, gap_penalty := -1 } =
      some [{ aligned_row_seq := { start := 0, «end» := 2, data := ['A', 'A'] }
              aligned_column_seq := { start := 1, «end» := 3, data := ['B', 'A'] }
              score := 3, identity_numer := 1, identity_denom := 2 }] ∧
    recompute_score 2 (-1) (-1) ['A', 'A'] ['B', 'A'] = 1 ∧ (1 : Score) ≠ 3 := by
  decide

/-- C6 counterexample: the claim is stated for every pair of input
sequences, but if the row sequence itself contains the gap sentinel `'-'`,
removing all gap symbols from the aligned row does not reproduce it: for
row `['-']` and empty column the aligned row is `['-']` and filtering gaps
yields `[]`. -/
theorem c6_cex :
    (needleman_wunsch ['-'] [] GlobalAlignmentConfig.default).map
        (fun r => r.aligned_row_seq.filter (fun a => a != GAP)) = some [] ∧
    ([] : List Letter) ≠ ['-'] := by
  decide

/-- C6 witness: the round trip at a concrete gap-free input. -/
theorem c6_witness :
    (⟨['A'], ['B'], -1, 0, 1⟩ : GlobalAlignmentResult).aligned_row_seq.filter
        (fun a => a != GAP) = ['A'] ∧
    (⟨['A'], ['B'], -1, 0, 1⟩ : GlobalAlignmentResult).aligned_column_seq.filter
        (fun a => a != GAP) = ['B'] :=
  c6_gap_roundtrip ['A'] ['B'] GlobalAlignmentConfig.default
    ⟨['A'], ['B'], -1, 0, 1⟩ (by decide) (by decide) (by decide)

/-- C9 counterexample: a diagonal step whose two consumed symbols are
exactly equal (both are the input letter `'-'`) increments the denominator
but not the numerator, refuting the claimed "iff the two consumed symbols
are exactly equal". -/
theorem c9_cex :
    (traceback_nw_top_left ['-'] ['-'] ⟨[], [], 0, 0, 0⟩ 0 0).identity_denom = 1 ∧
    normalize_letter (['-'].get? 0) = normalize_letter (['-'].get? 0) ∧
    (traceback_nw_top_left ['-'] ['-'] ⟨[], [], 0, 0, 0⟩ 0 0).identity_numer = 0 := by
  decide

/-- C10 counterexample: on the empty row sequence against `['A']` the local
aligner does not return a (non-empty) collection at all — the staircase
fill writes out of bounds and panics, modelled as `none`. -/
theorem c10_cex :
    best_smith_waterman [] ['A'] LocalAlignmentConfig.default = none := by
  decide

/-- C10 witness: a concrete normal run returns a non-empty collection. -/
theorem c10_witness :
    ([⟨⟨0, 0, []⟩, ⟨0, 0, []⟩, 0, 0, 1⟩, ⟨⟨0, 0, []⟩, ⟨1, 1, []⟩, 0, 0, 1⟩,
      ⟨⟨1, 1, []⟩, ⟨0, 0, []⟩, 0, 0, 1⟩, ⟨⟨1, 1, []⟩, ⟨1, 1, []⟩, 0, 0, 1⟩] :
      List LocalAlignmentResult) ≠ [] :=
  c10_nonempty ['A'] ['B'] LocalAlignmentConfig.default _ (by decide)

/-- C8 witness: the identity bounds at a concrete global result and a
concrete local result. -/
theorem c8_witness :
    ((⟨['A'], ['B'], -1, 0, 1⟩ : GlobalAlignmentResult).identity_numer ≤
        (⟨['A'], ['B'], -1, 0, 1⟩ : GlobalAlignmentResult).identity_denom ∧
      1 ≤ (⟨['A'], ['B'], -1, 0, 1⟩ : GlobalAlignmentResult).identity_denom) ∧
    ((⟨⟨0, 0, []⟩, ⟨0, 0, []⟩, 0, 0, 1⟩ : LocalAlignmentResult).identity_numer ≤
        (⟨⟨0, 0, []⟩, ⟨0, 0, []⟩, 0, 0, 1⟩ : LocalAlignmentResult).identity_denom ∧
      1 ≤ (⟨⟨0, 0, []⟩, ⟨0, 0, []⟩, 0, 0, 1⟩ : LocalAlignmentResult).identity_denom) := by
  have h := c8_identity_bounds ['A'] ['B'] GlobalAlignmentConfig.default
    LocalAlignmentConfig.default ⟨['A'], ['B'], -1, 0, 1⟩
    [⟨⟨0, 0, []⟩, ⟨0, 0, []⟩, 0, 0, 1⟩, ⟨⟨0, 0, []⟩, ⟨1, 1, []⟩, 0, 0, 1⟩,
      ⟨⟨1, 1, []⟩, ⟨0, 0, []⟩, 0, 0, 1⟩, ⟨⟨1, 1, []⟩, ⟨1, 1, []⟩, 0, 0, 1⟩]
  exact ⟨h.1 (by decide), h.2 (by decide) ⟨⟨0, 0, []⟩, ⟨0, 0, []⟩, 0, 0, 1⟩ (by decide)⟩

/-- C9 witness: the denominator increment at a concrete diagonal step. -/
theorem c9_witness :
    (traceback_nw_top_left ['A'] ['A'] ⟨[], [], 0, 0, 0⟩ 0 0).identity_denom =
      (⟨[], [], 0, 0, 0⟩ : GlobalAlignmentResult).identity_denom + 1 :=
  (c9_diagonal_identity_update ['A'] ['A'] ⟨[], [], 0, 0, 0⟩
    ⟨⟨0, 0, []⟩, ⟨0, 0, []⟩, 0, 0, 0⟩ 0 0).1

/-- C3 witness: the priority-rule characterisation at a concrete cell. -/
theorem c3_witness :
    (nw_choose_step GlobalAlignmentConfig.default ⟨[0, -2, -2, -1], 2⟩ 1 1 =
        some TracebackStep.Top ↔
      0 < 1 ∧ nw_score ['A'] ['B'] GlobalAlignmentConfig.default 1 1 =
        nw_score ['A'] ['B'] GlobalAlignmentConfig.default (1 - 1) 1 +
          GlobalAlignmentConfig.default.gap_penalty) ∧
    (nw_choose_step GlobalAlignmentConfig.default ⟨[0, -2, -2, -1], 2⟩ 1 1 =
        some TracebackStep.Left ↔
      ¬(0 < 1 ∧ nw_score ['A'] ['B'] GlobalAlignmentConfig.default 1 1 =
          nw_score ['A'] ['B'] GlobalAlignmentConfig.default (1 - 1) 1 +
            GlobalAlignmentConfig.default.gap_penalty) ∧
      (0 < 1 ∧ nw_score ['A'] ['B'] GlobalAlignmentConfig.default 1 1 =
        nw_score ['A'] ['B'] GlobalAlignmentConfig.default 1 (1 - 1) +
          GlobalAlignmentConfig.default.gap_penalty)) ∧
    (nw_choose_step GlobalAlignmentConfig.default ⟨[0, -2, -2, -1], 2⟩ 1 1 =
        some TracebackStep.TopLeft ↔
      ¬(0 < 1 ∧ nw_score ['A'] ['B'] GlobalAlignmentConfig.default 1 1 =
          nw_score ['A'] ['B'] GlobalAlignmentConfig.default (1 - 1) 1 +
            GlobalAlignmentConfig.default.gap_penalty) ∧
      ¬(0 < 1 ∧ nw_score ['A'] ['B'] GlobalAlignmentConfig.default 1 1 =
          nw_score ['A'] ['B'] GlobalAlignmentConfig.default 1 (1 - 1) +
            GlobalAlignmentConfig.default.gap_penalty)) :=
  c3_global_priority_rule ['A'] ['B'] GlobalAlignmentConfig.default
    ⟨[0, -2, -2, -1], 2⟩ 1 1 (by decide) (by decide) (by decide)

/-- C4 witness: the boundary-safety facts at a concrete border cell. -/
theorem c4_witness :
    ((0 : Nat) = 0 → 0 < 1 →
      nw_choose_step GlobalAlignmentConfig.default ⟨[0, -2, -2, -1], 2⟩ 0 1 =
        some TracebackStep.Left) ∧
    ((1 : Nat) = 0 → 0 < 0 →
      nw_choose_step GlobalAlignmentConfig.default ⟨[0, -2, -2, -1], 2⟩ 0 1 =
        some TracebackStep.Top) ∧
    (traceback_nw_loop ['A'] ['B'] GlobalAlignmentConfig.default
      ⟨[0, -2, -2, -1], 2⟩ (0 + 1) 0 1 ⟨[], [], 0, 0, 0⟩).isSome ∧
    (traceback_nw_best_alignment ['A'] ['B'] GlobalAlignmentConfig.default
      ⟨[0, -2, -2, -1], 2⟩).isSome :=
  c4_global_boundary_safety ['A'] ['B'] GlobalAlignmentConfig.default
    ⟨[0, -2, -2, -1], 2⟩ 0 1 ⟨[], [], 0, 0, 0⟩ (by decide) (by decide) (by decide)

end SeqAlign
